import Mathlib

/-!
Verification of the PyTor BitTorrent client core against its specification.

The Python sources are shallowly embedded as executable Lean definitions:

* `src/PyTinyTorrent/bencoding.py` — the bencode codec (`bencode_value`,
  `decode_value`, `bdecode`).  Byte strings are `List Nat` (each entry one
  byte).  The decoder's `(buffer, cursor)` pair is embedded as the remaining
  suffix of the buffer; every buffer access in the source is local to the
  cursor, so this is an equivalent presentation.  Raising `ValueError` /
  returning normally is embedded as `Option`.
* `src/peer_client.py` — peer-session state machine (`process_bitfield`,
  `request_piece`, `process_piece_message`, the message loop, the handshake
  check).  Python dicts become insertion-ordered association lists with
  overwrite-in-place update (CPython semantics); Python sets of small
  naturals become lists with set semantics.
* `src/tracker_client.py` — UDP tracker packet construction and response
  validation.

`hashlib.sha1` is an external library collaborator and is passed in as an
explicit function parameter wherever the source calls it.
-/

/-! ### Byte-string utilities -/

/-- Big-endian value of a byte list, as computed by `struct.unpack` of the
corresponding width (the callers always pass exactly the right number of
bytes). -/
def bytesBE (l : List Nat) : Nat := l.foldl (fun a b => 256 * a + b) 0

/-- `struct.pack(">H", n)` — two bytes, big-endian. -/
def u16be (n : Nat) : List Nat := [n / 256 % 256, n % 256]

/-- `struct.pack(">I", n)` — four bytes, big-endian. -/
def u32be (n : Nat) : List Nat :=
  [n / 2 ^ 24 % 256, n / 2 ^ 16 % 256, n / 2 ^ 8 % 256, n % 256]

/-- `struct.pack(">Q", n)` — eight bytes, big-endian. -/
def u64be (n : Nat) : List Nat :=
  [n / 2 ^ 56 % 256, n / 2 ^ 48 % 256, n / 2 ^ 40 % 256, n / 2 ^ 32 % 256,
   n / 2 ^ 24 % 256, n / 2 ^ 16 % 256, n / 2 ^ 8 % 256, n % 256]

/-- `struct.pack("!i", n)` — signed 32-bit big-endian (two's complement). -/
def i32be (n : Int) : List Nat := u32be (n % 2 ^ 32).toNat

/-- ASCII decimal digit test. -/
def isDigitByte (c : Nat) : Bool := 48 ≤ c && c ≤ 57

/-- ASCII whitespace stripped by Python `int()` (ASCII fragment). -/
def isPyWs (c : Nat) : Bool :=
  c == 32 || c == 9 || c == 10 || c == 13 || c == 12 || c == 11

/-- Digit run with optional single underscores between digits, as accepted by
Python `int()` after the sign; accumulates the value.  The head digit has
already been consumed by `pyDigits`. -/
def pyDigitsCore : List Nat → Nat → Option Nat
  | [], acc => some acc
  | c :: t, acc =>
    if isDigitByte c then pyDigitsCore t (10 * acc + (c - 48))
    else if c == 95 then
      match t with
      | d :: _ => if isDigitByte d then pyDigitsCore t acc else none
      | [] => none
    else none

/-- Nonempty digit run (underscore-separated) starting with a digit. -/
def pyDigits : List Nat → Option Nat
  | [] => none
  | c :: t => if isDigitByte c then pyDigitsCore t (c - 48) else none

/-- Python `int(bytes.decode("utf-8"))` on the ASCII fragment: strip ASCII
whitespace, optional sign, decimal digits (single underscores allowed between
digits).  Inputs outside this fragment (non-ASCII digits) are not produced by
any of the verified code paths. -/
def pyInt (s : List Nat) : Option Int :=
  match ((s.dropWhile isPyWs).reverse.dropWhile isPyWs).reverse with
  | [] => none
  | c :: r =>
    if c == 43 then (pyDigits r).map (fun n => (n : Int))
    else if c == 45 then (pyDigits r).map (fun n => -(n : Int))
    else (pyDigits (c :: r)).map (fun n => (n : Int))

/-- ASCII decimal representation of a natural number (`str(n)` for `n ≥ 0`),
most significant digit first. -/
def natDigits (n : Nat) : List Nat :=
  if h : n < 10 then [48 + n]
  else natDigits (n / 10) ++ [48 + n % 10]
decreasing_by exact Nat.div_lt_self (by omega) (by omega)

/-- `str(n)` for an arbitrary integer. -/
def intRepr (n : Int) : List Nat :=
  if n < 0 then 45 :: natDigits n.natAbs else natDigits n.toNat

/-- Python `bytes` comparison: lexicographic, byte-wise (`a <= b`). -/
def lexLe : List Nat → List Nat → Bool
  | [], _ => true
  | _ :: _, [] => false
  | a :: s, b :: t => if a < b then true else if b < a then false else lexLe s t

/-! ### Bencode values

The decoder produces Python `int` / `bytes` / `list` / `dict` trees; the
tagged sum below represents them.  Dictionaries are insertion-ordered
association lists (CPython dict iteration order); `dictInsert` realises
CPython assignment `d[k] = v`, which overwrites in place. -/

inductive BValue where
  | int (n : Int)
  | str (s : List Nat)
  | list (xs : List BValue)
  | dict (prs : List (List Nat × BValue))

/-- Is `k` a key of the association list. -/
def containsKey (d : List (List Nat × BValue)) (k : List Nat) : Bool :=
  d.any (fun p => p.1 == k)

/-- CPython `d[k] = v`: overwrite in place if present, else append. -/
def dictInsert (d : List (List Nat × BValue)) (k : List Nat) (v : BValue) :
    List (List Nat × BValue) :=
  if containsKey d k then d.map (fun p => if p.1 == k then (k, v) else p)
  else d ++ [(k, v)]

/-- First value bound to `k`. -/
def lookupKey : List (List Nat × BValue) → List Nat → Option BValue
  | [], _ => none
  | p :: t, k => if p.1 == k then some p.2 else lookupKey t k

/-- Keys are pairwise distinct (holds for every CPython dict). -/
def keysNodup : List (List Nat × BValue) → Bool
  | [] => true
  | p :: t => !(containsKey t p.1) && keysNodup t

/-- Stable insertion used by `sortPairs`. -/
def insertPair (p : List Nat × BValue) :
    List (List Nat × BValue) → List (List Nat × BValue)
  | [] => [p]
  | q :: t => if lexLe p.1 q.1 then p :: q :: t else q :: insertPair p t

/-- `sorted(value.keys())` together with the values: a stable ascending sort
of the key/value pairs by raw byte comparison of the keys.  Extensionally
equal to CPython `sorted` (both are stable) on every list; the source only
sorts dicts, whose keys are distinct. -/
def sortPairs : List (List Nat × BValue) → List (List Nat × BValue)
  | [] => []
  | p :: t => insertPair p (sortPairs t)

/-! ### The encoder, `bencode_value` (bencoding.py lines 67-88) -/

theorem sizeOf_snd_lt_of_mem_pairs {p : List Nat × BValue}
    {l : List (List Nat × BValue)} (h : p ∈ l) : sizeOf p.2 < sizeOf l := by
  have h1 := List.sizeOf_lt_of_mem h
  have h2 : sizeOf p.2 < sizeOf p := by
    obtain ⟨a, b⟩ := p; simp
  omega

theorem insertPair_perm (p : List Nat × BValue) (l : List (List Nat × BValue)) :
    List.Perm (insertPair p l) (p :: l) := by
  induction l with
  | nil => simp [insertPair]
  | cons q t ih =>
    simp only [insertPair]
    by_cases h : lexLe p.1 q.1
    · simp [h]
    · simp only [h, if_false]
      exact (ih.cons q).trans (List.Perm.swap p q t)

theorem sortPairs_perm (l : List (List Nat × BValue)) :
    List.Perm (sortPairs l) l := by
  induction l with
  | nil => simp [sortPairs]
  | cons p t ih => exact (insertPair_perm p (sortPairs t)).trans (ih.cons p)

theorem sizeOf_sortPairs (l : List (List Nat × BValue)) :
    sizeOf (sortPairs l) = sizeOf l :=
  (sortPairs_perm l).sizeOf_eq_sizeOf

mutual

/-- `bencode_value` (bencoding.py lines 67-88).  The `str` branch of the
source (text strings) is unreachable from decoder output and is omitted;
dictionary keys are byte strings, encoded through the same byte-string
branch the source uses. -/
def bencode_value : BValue → List Nat
  | .int n => 105 :: intRepr n ++ [101]
  | .str s => natDigits s.length ++ 58 :: s
  | .list xs => 108 :: bencodeItems xs ++ [101]
  | .dict prs => 100 :: bencodePairs (sortPairs prs) ++ [101]
termination_by v => sizeOf v
decreasing_by
  all_goals simp_wf
  all_goals first
  | omega
  | (rw [sizeOf_sortPairs]; omega)

/-- The `for item in value` loop of the list branch. -/
def bencodeItems : List BValue → List Nat
  | [] => []
  | v :: t => bencode_value v ++ bencodeItems t
termination_by xs => sizeOf xs
decreasing_by
  all_goals simp_wf
  all_goals omega

/-- The `for key in sorted(value.keys())` loop of the dict branch. -/
def bencodePairs : List (List Nat × BValue) → List Nat
  | [] => []
  | (k, v) :: t => bencode_value (.str k) ++ bencode_value v ++ bencodePairs t
termination_by l => sizeOf l
decreasing_by
  all_goals simp_wf
  all_goals omega

end

/-! ### The decoder (bencoding.py lines 9-65)

`decode_int` and `decode_string` are non-recursive; `decode_value`,
`decode_items` (the loop of `decode_list`) and `decode_pairs` (the loop of
`decode_dict`) recurse on an explicit fuel.  Python recursion has no fuel;
`bdecode` supplies enough fuel for every input the verified claims touch,
and the round-trip theorems quantify over all sufficient fuels. -/

/-- `bytes.find(target)`: index of the first occurrence, `none` for `-1`. -/
def pyFind (target : Nat) : List Nat → Option Nat
  | [] => none
  | c :: t => if c == target then some 0 else (pyFind target t).map (fun i => i + 1)

/-- `decode_int` (lines 9-15): find the terminating `e`, parse the decimal
between, return value and the suffix after the terminator. -/
def decode_int (b : List Nat) : Option (Int × List Nat) :=
  match pyFind 101 b with
  | none => none
  | some e => (pyInt ((b.take e).drop 1)).map (fun v => (v, b.drop (e + 1)))

/-- `decode_string` (lines 17-26): find the colon, parse the length, slice.
Python's slice clamps to the end of the buffer, so an oversized length
silently yields the truncated remainder — no error is raised.  (A negative
parsed length, reachable only through malformed dict keys, would move the
source's cursor backwards; the suffix embedding cannot represent that and
returns `none`.  No verified claim touches that corner.) -/
def decode_string (b : List Nat) : Option (List Nat × List Nat) :=
  match pyFind 58 b with
  | none => none
  | some c =>
    match pyInt (b.take c) with
    | none => none
    | some len =>
      if len < 0 then none
      else some (((b.drop (c + 1)).take len.toNat), b.drop (c + 1 + len.toNat))

mutual

/-- `decode_value` (lines 49-61): dispatch on the byte at the cursor via the
source's `if`/`elif` chain; an empty remainder is the empty one-byte slice,
which matches no prefix and raises. -/
def decode_value : Nat → List Nat → Option (BValue × List Nat)
  | 0, _ => none
  | f + 1, b =>
    match b with
    | [] => none
    | c :: _ =>
      if c == 105 then (decode_int b).map (fun r => (.int r.1, r.2))
      else if isDigitByte c then (decode_string b).map (fun r => (.str r.1, r.2))
      else if c == 108 then
        (decode_items f (b.drop 1)).map (fun r => (.list r.1, r.2))
      else if c == 100 then
        (decode_pairs f [] (b.drop 1)).map (fun r => (.dict r.1, r.2))
      else none

/-- The `while ... != b"e"` loop of `decode_list` (lines 28-36). -/
def decode_items : Nat → List Nat → Option (List BValue × List Nat)
  | 0, _ => none
  | f + 1, b =>
    if b.head? == some 101 then some ([], b.drop 1)
    else
      match decode_value f b with
      | none => none
      | some (v, rem) =>
        match decode_items f rem with
        | none => none
        | some (xs, rem2) => some (v :: xs, rem2)

/-- The `while ... != b"e"` loop of `decode_dict` (lines 38-47); `acc` is the
dict built so far (`decoded_dict[key] = value`). -/
def decode_pairs : Nat → List (List Nat × BValue) → List Nat →
    Option (List (List Nat × BValue) × List Nat)
  | 0, _, _ => none
  | f + 1, acc, b =>
    if b.head? == some 101 then some (acc, b.drop 1)
    else
      match decode_string b with
      | none => none
      | some (k, rem) =>
        match decode_value f rem with
        | none => none
        | some (v, rem2) => decode_pairs f (dictInsert acc k v) rem2

end

/-- `bdecode` (lines 63-65): decode from the start, keep the value.  The
fuel `b.length + 1` dominates the fuel needed by every input appearing in
the theorems below. -/
def bdecode (b : List Nat) : Option BValue :=
  (decode_value (b.length + 1) b).map Prod.fst

/-! ### Canonical form, well-formedness, Python equality

`canon v` is what decoding `bencode_value v` returns: the same tree with
every dictionary's pairs in sorted key order.  `wfnd` states that every
dictionary has pairwise-distinct keys (true of every tree the decoder can
produce, since CPython dicts cannot hold duplicate keys); `wfsorted`
additionally requires every dictionary's keys to be strictly ascending —
exactly the canonical-bencoding condition of the specification.  `pyEq` is
CPython `==` on these trees: structural on ints, bytes and lists, and
order-insensitive key/value comparison on dicts. -/

mutual

def canon : BValue → BValue
  | .int n => .int n
  | .str s => .str s
  | .list xs => .list (canonItems xs)
  | .dict prs => .dict (canonPairs (sortPairs prs))
termination_by v => sizeOf v
decreasing_by
  all_goals simp_wf
  all_goals first
  | omega
  | (rw [sizeOf_sortPairs]; omega)

def canonItems : List BValue → List BValue
  | [] => []
  | v :: t => canon v :: canonItems t
termination_by xs => sizeOf xs
decreasing_by
  all_goals simp_wf
  all_goals omega

def canonPairs : List (List Nat × BValue) → List (List Nat × BValue)
  | [] => []
  | (k, v) :: t => (k, canon v) :: canonPairs t
termination_by l => sizeOf l
decreasing_by
  all_goals simp_wf
  all_goals omega

end

mutual

/-- Fuel sufficient for `decode_value` on `bencode_value v`. -/
def fuelV : BValue → Nat
  | .int _ => 1
  | .str _ => 1
  | .list xs => 1 + fuelItems xs
  | .dict prs => 1 + fuelPairs (sortPairs prs)
termination_by v => sizeOf v
decreasing_by
  all_goals simp_wf
  all_goals first
  | omega
  | (rw [sizeOf_sortPairs]; omega)

def fuelItems : List BValue → Nat
  | [] => 1
  | v :: t => 1 + max (fuelV v) (fuelItems t)
termination_by xs => sizeOf xs
decreasing_by
  all_goals simp_wf
  all_goals omega

def fuelPairs : List (List Nat × BValue) → Nat
  | [] => 1
  | (_, v) :: t => 1 + max (fuelV v) (fuelPairs t)
termination_by l => sizeOf l
decreasing_by
  all_goals simp_wf
  all_goals omega

end

mutual

/-- Every dictionary in the tree has pairwise-distinct keys. -/
def wfnd : BValue → Bool
  | .int _ => true
  | .str _ => true
  | .list xs => wfndItems xs
  | .dict prs => keysNodup prs && wfndPairs prs
termination_by v => sizeOf v
decreasing_by
  all_goals simp_wf
  all_goals omega

def wfndItems : List BValue → Bool
  | [] => true
  | v :: t => wfnd v && wfndItems t
termination_by xs => sizeOf xs
decreasing_by
  all_goals simp_wf
  all_goals omega

def wfndPairs : List (List Nat × BValue) → Bool
  | [] => true
  | (_, v) :: t => wfnd v && wfndPairs t
termination_by l => sizeOf l
decreasing_by
  all_goals simp_wf
  all_goals omega

end

/-- Keys in ascending byte order: every key is `<=` every later key. -/
def keysSortedLe : List (List Nat × BValue) → Bool
  | [] => true
  | p :: t => t.all (fun q => lexLe p.1 q.1) && keysSortedLe t

mutual

/-- Every dictionary in the tree has strictly ascending keys: the
canonical-form condition of the specification. -/
def wfsorted : BValue → Bool
  | .int _ => true
  | .str _ => true
  | .list xs => wfsortedItems xs
  | .dict prs => keysSortedLe prs && keysNodup prs && wfsortedPairs prs
termination_by v => sizeOf v
decreasing_by
  all_goals simp_wf
  all_goals omega

def wfsortedItems : List BValue → Bool
  | [] => true
  | v :: t => wfsorted v && wfsortedItems t
termination_by xs => sizeOf xs
decreasing_by
  all_goals simp_wf
  all_goals omega

def wfsortedPairs : List (List Nat × BValue) → Bool
  | [] => true
  | (_, v) :: t => wfsorted v && wfsortedPairs t
termination_by l => sizeOf l
decreasing_by
  all_goals simp_wf
  all_goals omega

end

mutual

/-- CPython `==` on decoded trees (dicts compare as maps; both sides of
every comparison arising below have distinct keys). -/
def pyEq : BValue → BValue → Bool
  | .int a, .int b => a == b
  | .str a, .str b => a == b
  | .list xs, .list ys => pyEqItems xs ys
  | .dict a, .dict b => a.length == b.length && pyEqPairs a b
  | _, _ => false
termination_by v _ => sizeOf v
decreasing_by
  all_goals simp_wf
  all_goals omega

def pyEqItems : List BValue → List BValue → Bool
  | [], [] => true
  | x :: s, y :: t => pyEq x y && pyEqItems s t
  | _, _ => false
termination_by xs _ => sizeOf xs
decreasing_by
  all_goals simp_wf
  all_goals omega

def pyEqPairs : List (List Nat × BValue) → List (List Nat × BValue) → Bool
  | [], _ => true
  | (k, v) :: t, b =>
    (match lookupKey b k with
     | some w => pyEq v w
     | none => false) && pyEqPairs t b
termination_by l _ => sizeOf l
decreasing_by
  all_goals simp_wf
  all_goals omega

end

/-- Structural induction principle for the nested inductive `BValue`. -/
theorem bvalue_ind (P : BValue → Prop)
    (hint : ∀ n, P (.int n)) (hstr : ∀ s, P (.str s))
    (hlist : ∀ xs, (∀ v, v ∈ xs → P v) → P (.list xs))
    (hdict : ∀ prs, (∀ p, p ∈ prs → P p.2) → P (.dict prs)) :
    ∀ v, P v := fun v =>
  match v with
  | .int n => hint n
  | .str s => hstr s
  | .list xs =>
    hlist xs (fun w hw => bvalue_ind P hint hstr hlist hdict w)
  | .dict prs =>
    hdict prs (fun p hp => bvalue_ind P hint hstr hlist hdict p.2)
termination_by v => sizeOf v
decreasing_by
  · have := List.sizeOf_lt_of_mem hw; simp; omega
  · have := sizeOf_snd_lt_of_mem_pairs hp; simp; omega

/-! ### Decimal digits: `str` / `int()` round-trip lemmas -/

theorem isPyWs_false_of_digit {c : Nat} (h : isDigitByte c = true) :
    isPyWs c = false := by
  simp [isDigitByte] at h
  simp [isPyWs]
  omega

theorem natDigits_digits (n : Nat) : ∀ c ∈ natDigits n, isDigitByte c = true := by
  induction n using Nat.strong_induction_on with
  | _ n ih =>
    rw [natDigits]
    by_cases h : n < 10
    · simp [h, isDigitByte]; omega
    · simp only [h, dite_false]
      intro c hc
      rcases List.mem_append.1 hc with h1 | h1
      · exact ih (n / 10) (Nat.div_lt_self (by omega) (by omega)) c h1
      · simp at h1
        subst h1
        simp [isDigitByte]
        omega

theorem natDigits_ne_nil (n : Nat) : natDigits n ≠ [] := by
  rw [natDigits]
  by_cases h : n < 10 <;> simp [h]

theorem pyDigitsCore_all (l : List Nat) :
    (∀ c ∈ l, isDigitByte c = true) → ∀ acc,
      pyDigitsCore l acc = some (l.foldl (fun a c => 10 * a + (c - 48)) acc) := by
  induction l with
  | nil => intro _ acc; simp [pyDigitsCore]
  | cons c t ih =>
    intro h acc
    have hc : isDigitByte c = true := h c (by simp)
    simp only [pyDigitsCore, hc, if_true, List.foldl_cons]
    exact ih (fun d hd => h d (by simp [hd])) _

theorem foldl_natDigits (n : Nat) : ∀ acc,
    (natDigits n).foldl (fun a c => 10 * a + (c - 48)) acc =
      acc * 10 ^ (natDigits n).length + n := by
  induction n using Nat.strong_induction_on with
  | _ n ih =>
    intro acc
    rw [natDigits]
    by_cases h : n < 10
    · simp [h]; omega
    · simp only [h, dite_false, List.foldl_append, List.foldl_cons,
        List.foldl_nil, List.length_append, List.length_cons, List.length_nil]
      rw [ih (n / 10) (Nat.div_lt_self (by omega) (by omega)) acc]
      have h10 : 10 * (acc * 10 ^ (natDigits (n / 10)).length + n / 10)
          + (48 + n % 10 - 48)
          = acc * 10 ^ ((natDigits (n / 10)).length + (0 + 1)) + n := by
        have : 48 + n % 10 - 48 = n % 10 := by omega
        rw [this, pow_add]
        have := Nat.div_add_mod n 10
        ring_nf
        omega
      omega

theorem pyDigits_natDigits (n : Nat) : pyDigits (natDigits n) = some n := by
  obtain ⟨c, t, hct⟩ : ∃ c t, natDigits n = c :: t := by
    cases h : natDigits n with
    | nil => exact absurd h (natDigits_ne_nil n)
    | cons c t => exact ⟨c, t, rfl⟩
  have hall := natDigits_digits n
  rw [hct] at hall ⊢
  have hc : isDigitByte c = true := hall c (by simp)
  simp only [pyDigits, hc, if_true]
  rw [pyDigitsCore_all t (fun d hd => hall d (by simp [hd]))]
  have := foldl_natDigits n 0
  rw [hct] at this
  simp only [List.foldl_cons] at this
  simp only [Nat.zero_mul, Nat.mul_zero, Nat.zero_add] at this
  rw [this]

theorem dropWhile_eq_self_of_not {p : Nat → Bool} {l : List Nat}
    (h : ∀ c ∈ l, p c = false) : l.dropWhile p = l := by
  cases l with
  | nil => simp
  | cons c t => simp [List.dropWhile, h c (by simp)]

theorem strip_eq_self {l : List Nat} (h : ∀ c ∈ l, isPyWs c = false) :
    ((l.dropWhile isPyWs).reverse.dropWhile isPyWs).reverse = l := by
  rw [dropWhile_eq_self_of_not h,
    dropWhile_eq_self_of_not (fun c hc => h c (List.mem_reverse.1 hc)),
    List.reverse_reverse]

theorem pyInt_natDigits (n : Nat) : pyInt (natDigits n) = some (n : Int) := by
  obtain ⟨c, t, hct⟩ : ∃ c t, natDigits n = c :: t := by
    cases h : natDigits n with
    | nil => exact absurd h (natDigits_ne_nil n)
    | cons c t => exact ⟨c, t, rfl⟩
  have hall := natDigits_digits n
  have hstrip := strip_eq_self
    (fun c hc => isPyWs_false_of_digit (hall c hc))
  rw [pyInt, hstrip, hct]
  have hc : isDigitByte c = true := by
    rw [hct] at hall; exact hall c (by simp)
  have h43 : (c == 43) = false := by
    simp [isDigitByte] at hc; simp; omega
  have h45 : (c == 45) = false := by
    simp [isDigitByte] at hc; simp; omega
  simp only [h43, h45, Bool.false_eq_true, if_false]
  rw [← hct, pyDigits_natDigits]
  simp

theorem pyInt_intRepr (n : Int) : pyInt (intRepr n) = some n := by
  rw [intRepr]
  by_cases h : n < 0
  · simp only [h, if_true]
    have hall := natDigits_digits n.natAbs
    have hnw : ∀ c ∈ 45 :: natDigits n.natAbs, isPyWs c = false := by
      intro c hc
      rcases List.mem_cons.1 hc with h1 | h1
      · subst h1; simp [isPyWs]
      · exact isPyWs_false_of_digit (hall c h1)
    rw [pyInt, strip_eq_self hnw]
    simp only [show ((45 : Nat) == 43) = false from rfl,
      show ((45 : Nat) == 45) = true from rfl, Bool.false_eq_true, if_false,
      if_true, pyDigits_natDigits]
    have habs : ((n.natAbs : Nat) : Int) = -n := by
      rcases Int.natAbs_eq n with h1 | h1 <;> omega
    simp [habs]
  · simp only [h, if_false, pyInt_natDigits]
    congr 1
    omega

/-! ### `decode_int` and `decode_string` on encoder output -/

theorem pyFind_append {target : Nat} {l : List Nat}
    (h : ∀ c ∈ l, (c == target) = false) (r : List Nat) :
    pyFind target (l ++ target :: r) = some l.length := by
  induction l with
  | nil => simp [pyFind]
  | cons c t ih =>
    simp only [List.cons_append, pyFind, h c (by simp), Bool.false_eq_true,
      if_false, List.append_eq]
    rw [ih (fun d hd => h d (by simp [hd]))]
    simp

theorem intRepr_ne_101 (n : Int) : ∀ c ∈ intRepr n, (c == 101) = false := by
  intro c hc
  rw [intRepr] at hc
  have hd : isDigitByte c = true ∨ c = 45 := by
    by_cases h : n < 0
    · simp [h] at hc
      rcases hc with h1 | h1
      · right; exact h1
      · left; exact natDigits_digits _ c h1
    · simp [h] at hc
      left; exact natDigits_digits _ c hc
  rcases hd with h1 | h1
  · simp [isDigitByte] at h1; simp; omega
  · subst h1; simp

theorem decode_int_spec (n : Int) (rest : List Nat) :
    decode_int (105 :: intRepr n ++ 101 :: rest) = some (n, rest) := by
  have hfind : pyFind 101 (105 :: intRepr n ++ 101 :: rest)
      = some (1 + (intRepr n).length) := by
    simp only [List.cons_append, pyFind, show ((105 : Nat) == 101) = false from
      rfl, Bool.false_eq_true, if_false, List.append_eq]
    rw [pyFind_append (intRepr_ne_101 n) rest]
    simp
    omega
  have htake : ((105 :: intRepr n ++ 101 :: rest).take (1 + (intRepr n).length)).drop 1
      = intRepr n := by
    have heq : (105 :: intRepr n ++ 101 :: rest) = (105 :: intRepr n) ++ 101 :: rest := by
      simp
    rw [heq, List.take_left' (by simp; omega)]
    simp
  have hdrop : (105 :: intRepr n ++ 101 :: rest).drop (1 + (intRepr n).length + 1)
      = rest := by
    have heq : (105 :: intRepr n ++ 101 :: rest) = (105 :: intRepr n ++ [101]) ++ rest := by
      simp
    rw [heq, List.drop_left' (by simp; omega)]
  simp only [decode_int, hfind, htake, hdrop, pyInt_intRepr, Option.map_some']

theorem natDigits_ne_58 (n : Nat) : ∀ c ∈ natDigits n, (c == 58) = false := by
  intro c hc
  have := natDigits_digits n c hc
  simp [isDigitByte] at this
  simp
  omega

theorem decode_string_spec (s rest : List Nat) :
    decode_string (natDigits s.length ++ 58 :: (s ++ rest)) = some (s, rest) := by
  have hfind := pyFind_append (natDigits_ne_58 s.length) (s ++ rest)
  have htake1 : (natDigits s.length ++ 58 :: (s ++ rest)).take
      (natDigits s.length).length = natDigits s.length := List.take_left' rfl
  have hnonneg : ¬ ((s.length : Int) < 0) := by omega
  have hd1 : (natDigits s.length ++ 58 :: (s ++ rest)).drop
      ((natDigits s.length).length + 1) = s ++ rest := by
    have heq : natDigits s.length ++ 58 :: (s ++ rest)
        = (natDigits s.length ++ [58]) ++ (s ++ rest) := by simp
    rw [heq, List.drop_left' (by simp)]
  have hd2 : (natDigits s.length ++ 58 :: (s ++ rest)).drop
      ((natDigits s.length).length + 1 + s.length) = rest := by
    have heq : natDigits s.length ++ 58 :: (s ++ rest)
        = ((natDigits s.length ++ [58]) ++ s) ++ rest := by simp
    rw [heq, List.drop_left' (by simp; omega)]
  simp only [decode_string, hfind, htake1, pyInt_natDigits]
  rw [if_neg hnonneg]
  simp only [Int.toNat_natCast, hd1, hd2, List.take_left' rfl]

/-! ### Transport lemmas for `sortPairs` and `dictInsert` -/

theorem containsKey_iff {l : List (List Nat × BValue)} {k : List Nat} :
    containsKey l k = true ↔ k ∈ l.map Prod.fst := by
  simp only [containsKey, List.any_eq_true, List.mem_map, beq_iff_eq]

theorem containsKey_false_iff {l : List (List Nat × BValue)} {k : List Nat} :
    containsKey l k = false ↔ ∀ p ∈ l, p.1 ≠ k := by
  rw [← Bool.not_eq_true, containsKey_iff]
  constructor
  · intro h p hp he
    exact h (List.mem_map.2 ⟨p, hp, he⟩)
  · intro h hmem
    rcases List.mem_map.1 hmem with ⟨p, hp, he⟩
    exact h p hp he

theorem keysNodup_iff {l : List (List Nat × BValue)} :
    keysNodup l = true ↔ (l.map Prod.fst).Nodup := by
  induction l with
  | nil => simp [keysNodup]
  | cons p t ih =>
    simp only [keysNodup, Bool.and_eq_true, Bool.not_eq_true', ih,
      List.map_cons, List.nodup_cons, containsKey_false_iff]
    constructor
    · rintro ⟨h1, h2⟩
      refine ⟨?_, h2⟩
      intro hmem
      rcases List.mem_map.1 hmem with ⟨q, hq, hqe⟩
      exact h1 q hq hqe
    · rintro ⟨h1, h2⟩
      refine ⟨?_, h2⟩
      intro q hq hqe
      exact h1 (List.mem_map.2 ⟨q, hq, hqe⟩)

theorem keysNodup_sortPairs {prs : List (List Nat × BValue)}
    (h : keysNodup prs = true) : keysNodup (sortPairs prs) = true :=
  keysNodup_iff.2 (((sortPairs_perm prs).map Prod.fst).nodup_iff.2
    (keysNodup_iff.1 h))

theorem wfndPairs_iff {l : List (List Nat × BValue)} :
    wfndPairs l = true ↔ ∀ p ∈ l, wfnd p.2 = true := by
  induction l with
  | nil => simp [wfndPairs]
  | cons p t ih =>
    obtain ⟨k, v⟩ := p
    simp only [wfndPairs, Bool.and_eq_true, ih, List.mem_cons]
    constructor
    · rintro ⟨h1, h2⟩ q hq
      rcases hq with h | h
      · subst h; exact h1
      · exact h2 q h
    · intro h
      exact ⟨h (k, v) (Or.inl rfl), fun q hq => h q (Or.inr hq)⟩

theorem wfndPairs_sortPairs {prs : List (List Nat × BValue)}
    (h : wfndPairs prs = true) : wfndPairs (sortPairs prs) = true := by
  rw [wfndPairs_iff] at h ⊢
  intro p hp
  exact h p ((sortPairs_perm prs).mem_iff.1 hp)

theorem dictInsert_of_not_contains {acc : List (List Nat × BValue)}
    {k : List Nat} (v : BValue) (h : containsKey acc k = false) :
    dictInsert acc k v = acc ++ [(k, v)] := by
  simp [dictInsert, h]

theorem foldl_dictInsert_append (l : List (List Nat × BValue)) :
    ∀ acc, (∀ p ∈ l, containsKey acc p.1 = false) → keysNodup l = true →
      l.foldl (fun a p => dictInsert a p.1 (canon p.2)) acc = acc ++ canonPairs l := by
  induction l with
  | nil => intro acc _ _; simp [canonPairs]
  | cons p t ih =>
    intro acc hacc hnd
    obtain ⟨k, v⟩ := p
    simp only [keysNodup, Bool.and_eq_true, Bool.not_eq_true'] at hnd
    obtain ⟨hkt, hndt⟩ := hnd
    simp only [List.foldl_cons]
    rw [dictInsert_of_not_contains (canon v) (hacc (k, v) (by simp))]
    rw [ih (acc ++ [(k, canon v)]) ?_ hndt]
    · simp [canonPairs]
    · intro q hq
      rw [containsKey_false_iff]
      intro r hr
      rcases List.mem_append.1 hr with h | h
      · exact containsKey_false_iff.1 (hacc q (by simp [hq])) r h
      · simp at h
        intro hrq
        rw [h] at hrq
        have := containsKey_false_iff.1 hkt q hq
        exact this hrq.symm

/-! ### Fuel positivity and the head byte of an encoding -/

theorem fuelV_pos (v : BValue) : 1 ≤ fuelV v := by
  cases v <;> simp [fuelV] <;> try omega

theorem fuelItems_pos (xs : List BValue) : 1 ≤ fuelItems xs := by
  cases xs <;> simp [fuelItems] <;> try omega

theorem fuelPairs_pos (l : List (List Nat × BValue)) : 1 ≤ fuelPairs l := by
  cases l with
  | nil => simp [fuelPairs]
  | cons p t => obtain ⟨k, v⟩ := p; simp [fuelPairs]

theorem bencode_head_ne_101 (v : BValue) :
    ∃ c t, bencode_value v = c :: t ∧ (c == 101) = false := by
  cases v with
  | int n => exact ⟨105, intRepr n ++ [101], by simp [bencode_value], rfl⟩
  | str s =>
    obtain ⟨c, t, hct⟩ : ∃ c t, natDigits s.length = c :: t := by
      cases h : natDigits s.length with
      | nil => exact absurd h (natDigits_ne_nil _)
      | cons c t => exact ⟨c, t, rfl⟩
    have hc := natDigits_digits s.length c (by rw [hct]; simp)
    refine ⟨c, t ++ 58 :: s, by simp [bencode_value, hct], ?_⟩
    simp [isDigitByte] at hc
    simp
    omega
  | list xs => exact ⟨108, bencodeItems xs ++ [101], by simp [bencode_value], rfl⟩
  | dict prs =>
    exact ⟨100, bencodePairs (sortPairs prs) ++ [101], by simp [bencode_value], rfl⟩

/-! ### Decoding an encoding: the main round-trip engine -/

theorem decode_bencode_all (f : Nat) :
    (∀ v rest, wfnd v = true → fuelV v ≤ f →
      decode_value f (bencode_value v ++ rest) = some (canon v, rest)) ∧
    (∀ xs rest, wfndItems xs = true → fuelItems xs ≤ f →
      decode_items f (bencodeItems xs ++ 101 :: rest) = some (canonItems xs, rest)) ∧
    (∀ l acc rest, wfndPairs l = true → fuelPairs l ≤ f →
      decode_pairs f acc (bencodePairs l ++ 101 :: rest) =
        some (l.foldl (fun a p => dictInsert a p.1 (canon p.2)) acc, rest)) := by
  induction f with
  | zero =>
    refine ⟨fun v rest _ hf => absurd hf ?_, fun xs rest _ hf => absurd hf ?_,
      fun l acc rest _ hf => absurd hf ?_⟩
    · have := fuelV_pos v; omega
    · have := fuelItems_pos xs; omega
    · have := fuelPairs_pos l; omega
  | succ f ih =>
    obtain ⟨ihv, ihi, ihp⟩ := ih
    refine ⟨?_, ?_, ?_⟩
    · intro v rest hwf hf
      cases v with
      | int n =>
        have heq : bencode_value (.int n) ++ rest
            = 105 :: (intRepr n ++ 101 :: rest) := by
          simp [bencode_value]
        rw [heq]
        simp only [decode_value]
        have hspec := decode_int_spec n rest
        have heq2 : (105 : Nat) :: intRepr n ++ 101 :: rest
            = 105 :: (intRepr n ++ 101 :: rest) := by simp
        rw [heq2] at hspec
        simp [hspec, canon]
      | str s =>
        obtain ⟨c, t, hct⟩ : ∃ c t, natDigits s.length = c :: t := by
          cases h : natDigits s.length with
          | nil => exact absurd h (natDigits_ne_nil _)
          | cons c t => exact ⟨c, t, rfl⟩
        have hc := natDigits_digits s.length c (by rw [hct]; simp)
        have hcr : 48 ≤ c ∧ c ≤ 57 := by simpa [isDigitByte] using hc
        have heq : bencode_value (.str s) ++ rest
            = c :: (t ++ 58 :: (s ++ rest)) := by
          simp [bencode_value, hct]
        rw [heq]
        simp only [decode_value]
        have h105 : (c == 105) = false := by simp; omega
        simp only [h105, Bool.false_eq_true, if_false, hc, if_true]
        have hspec := decode_string_spec s rest
        have heq2 : natDigits s.length ++ 58 :: (s ++ rest)
            = c :: (t ++ 58 :: (s ++ rest)) := by simp [hct]
        rw [heq2] at hspec
        simp [hspec, canon]
      | list xs =>
        have heq : bencode_value (.list xs) ++ rest
            = 108 :: (bencodeItems xs ++ 101 :: rest) := by
          simp [bencode_value]
        rw [heq]
        simp only [decode_value]
        have hwf2 : wfndItems xs = true := by simpa [wfnd] using hwf
        have hf2 : fuelItems xs ≤ f := by
          have : fuelV (.list xs) = 1 + fuelItems xs := by simp [fuelV]
          omega
        rw [show ((108 : Nat) == 105) = false from rfl]
        rw [show isDigitByte 108 = false from rfl]
        rw [show ((108 : Nat) == 108) = true from rfl]
        simp only [Bool.false_eq_true, if_false, if_true, List.drop_succ_cons,
          List.drop_zero]
        rw [ihi xs rest hwf2 hf2]
        simp [canon]
      | dict prs =>
        have heq : bencode_value (.dict prs) ++ rest
            = 100 :: (bencodePairs (sortPairs prs) ++ 101 :: rest) := by
          simp [bencode_value]
        rw [heq]
        simp only [decode_value]
        have hwf2 : keysNodup prs = true ∧ wfndPairs prs = true := by
          simpa [wfnd, Bool.and_eq_true] using hwf
        have hf2 : fuelPairs (sortPairs prs) ≤ f := by
          have : fuelV (.dict prs) = 1 + fuelPairs (sortPairs prs) := by
            simp [fuelV]
          omega
        rw [show ((100 : Nat) == 105) = false from rfl]
        rw [show isDigitByte 100 = false from rfl]
        rw [show ((100 : Nat) == 108) = false from rfl]
        rw [show ((100 : Nat) == 100) = true from rfl]
        simp only [Bool.false_eq_true, if_false, if_true, List.drop_succ_cons,
          List.drop_zero]
        rw [ihp (sortPairs prs) [] rest (wfndPairs_sortPairs hwf2.2) hf2]
        rw [foldl_dictInsert_append (sortPairs prs) []
          (fun p _ => by simp [containsKey]) (keysNodup_sortPairs hwf2.1)]
        simp [canon]
    · intro xs rest hwf hf
      cases xs with
      | nil =>
        simp only [bencodeItems, List.nil_append, decode_items, List.head?,
          canonItems]
        simp
      | cons v t =>
        have heq : bencodeItems (v :: t) ++ 101 :: rest
            = bencode_value v ++ (bencodeItems t ++ 101 :: rest) := by
          simp [bencodeItems]
        rw [heq]
        obtain ⟨c, ct, hct, hc101⟩ := bencode_head_ne_101 v
        have hwf2 : wfnd v = true ∧ wfndItems t = true := by
          simpa [wfndItems, Bool.and_eq_true] using hwf
        have hfv : fuelV v ≤ f ∧ fuelItems t ≤ f := by
          have : fuelItems (v :: t) = 1 + max (fuelV v) (fuelItems t) := by
            simp [fuelItems]
          constructor <;> omega
        simp only [decode_items]
        rw [hct]
        simp only [List.cons_append, List.head?_cons]
        rw [show ∀ x : Nat, ((some x == some 101) : Bool) = (x == 101) from
          fun x => rfl]
        simp only [hc101, Bool.false_eq_true, if_false]
        rw [← List.cons_append, ← hct, ihv v _ hwf2.1 hfv.1]
        simp [ihi t rest hwf2.2 hfv.2, canonItems]
    · intro l acc rest hwf hf
      cases l with
      | nil =>
        simp only [bencodePairs, List.nil_append, decode_pairs, List.head?]
        simp
      | cons p t =>
        obtain ⟨k, v⟩ := p
        have heq : bencodePairs ((k, v) :: t) ++ 101 :: rest
            = natDigits k.length ++ 58 ::
                (k ++ (bencode_value v ++ (bencodePairs t ++ 101 :: rest))) := by
          simp [bencodePairs, bencode_value]
        obtain ⟨c, ct, hct⟩ : ∃ c ct, natDigits k.length = c :: ct := by
          cases h : natDigits k.length with
          | nil => exact absurd h (natDigits_ne_nil _)
          | cons c ct => exact ⟨c, ct, rfl⟩
        have hc := natDigits_digits k.length c (by rw [hct]; simp)
        have hcr : 48 ≤ c ∧ c ≤ 57 := by simpa [isDigitByte] using hc
        have hc101 : (c == 101) = false := by simp; omega
        have hwf2 : wfnd v = true ∧ wfndPairs t = true := by
          simpa [wfndPairs, Bool.and_eq_true] using hwf
        have hfv : fuelV v ≤ f ∧ fuelPairs t ≤ f := by
          have : fuelPairs ((k, v) :: t) = 1 + max (fuelV v) (fuelPairs t) := by
            simp [fuelPairs]
          constructor <;> omega
        rw [heq, hct]
        simp only [decode_pairs, List.cons_append, List.head?_cons]
        rw [show ∀ x : Nat, ((some x == some 101) : Bool) = (x == 101) from
          fun x => rfl]
        simp only [hc101, Bool.false_eq_true, if_false]
        have hspec := decode_string_spec k
          (bencode_value v ++ (bencodePairs t ++ 101 :: rest))
        rw [hct] at hspec
        simp only [List.cons_append] at hspec
        rw [hspec]
        simp only [ihv v _ hwf2.1 hfv.1]
        simp only [ihp t (dictInsert acc k (canon v)) rest hwf2.2 hfv.2]
        simp

/-! ### `lexLe` is a total preorder; `sortPairs` sorts -/

theorem lexLe_total : ∀ a b : List Nat, lexLe a b = true ∨ lexLe b a = true := by
  intro a
  induction a with
  | nil => intro b; left; simp [lexLe]
  | cons x s ih =>
    intro b
    cases b with
    | nil => right; simp [lexLe]
    | cons y t =>
      by_cases hxy : x < y
      · left; simp [lexLe, hxy]
      · by_cases hyx : y < x
        · right; simp [lexLe, hyx]
        · have hxy2 : x = y := by omega
          subst hxy2
          rcases ih t with h | h
          · left; simp [lexLe, h]
          · right; simp [lexLe, h]

theorem lexLe_trans : ∀ a b c : List Nat,
    lexLe a b = true → lexLe b c = true → lexLe a c = true := by
  intro a
  induction a with
  | nil => intro b c _ _; simp [lexLe]
  | cons x s ih =>
    intro b c hab hbc
    cases b with
    | nil => simp [lexLe] at hab
    | cons y t =>
      cases c with
      | nil => simp [lexLe] at hbc
      | cons z u =>
        simp only [lexLe] at hab hbc ⊢
        by_cases hxy : x < y
        · by_cases hyz : y < z
          · simp [show x < z by omega]
          · by_cases hzy : z < y
            · simp [hyz, hzy] at hbc
            · have : y = z := by omega
              subst this
              simp [hxy]
        · by_cases hyx : y < x
          · simp [hxy, hyx] at hab
          · have : x = y := by omega
            subst this
            by_cases hyz : x < z
            · simp [hyz]
            · by_cases hzy : z < x
              · simp [hyz, hzy] at hbc
              · have : x = z := by omega
                subst this
                simp [hxy, hyx] at hab hbc ⊢
                exact ih t u hab hbc

theorem keysSortedLe_insertPair {p : List Nat × BValue}
    {l : List (List Nat × BValue)} (h : keysSortedLe l = true) :
    keysSortedLe (insertPair p l) = true := by
  induction l with
  | nil => simp [insertPair, keysSortedLe]
  | cons q t ih =>
    simp only [keysSortedLe, Bool.and_eq_true, List.all_eq_true] at h
    obtain ⟨hq, ht⟩ := h
    by_cases hpq : lexLe p.1 q.1 = true
    · simp only [insertPair, hpq, if_true]
      simp only [keysSortedLe, Bool.and_eq_true, List.all_eq_true]
      refine ⟨?_, ?_, ht⟩
      · intro r hr
        rcases List.mem_cons.1 hr with h1 | h1
        · subst h1; exact hpq
        · exact lexLe_trans _ _ _ hpq (hq r h1)
      · exact hq
    · simp only [insertPair, hpq, if_false]
      simp only [keysSortedLe, Bool.and_eq_true, List.all_eq_true]
      refine ⟨?_, ih ht⟩
      intro r hr
      rcases List.mem_cons.1 ((insertPair_perm p t).mem_iff.1 hr) with h1 | h1
      · rcases lexLe_total p.1 q.1 with h2 | h2
        · exact absurd h2 hpq
        · rw [h1]; exact h2
      · exact hq r h1

theorem sortPairs_sorted (l : List (List Nat × BValue)) :
    keysSortedLe (sortPairs l) = true := by
  induction l with
  | nil => simp [sortPairs, keysSortedLe]
  | cons p t ih => exact keysSortedLe_insertPair ih

theorem sortPairs_of_sorted : ∀ {l : List (List Nat × BValue)},
    keysSortedLe l = true → sortPairs l = l := by
  intro l
  induction l with
  | nil => intro _; simp [sortPairs]
  | cons p t ih =>
    intro h
    simp only [keysSortedLe, Bool.and_eq_true, List.all_eq_true] at h
    obtain ⟨hp, ht⟩ := h
    simp only [sortPairs]
    rw [ih ht]
    cases t with
    | nil => simp [insertPair]
    | cons q u => simp [insertPair, hp q (by simp)]

/-! ### Fuel bounds: `b.length + 1` fuel always suffices on encoder output -/

theorem bencode_length_pos (v : BValue) : 1 ≤ (bencode_value v).length := by
  obtain ⟨c, t, hct, -⟩ := bencode_head_ne_101 v
  simp [hct]

theorem fuelItems_le (xs : List BValue)
    (h : ∀ v ∈ xs, fuelV v ≤ (bencode_value v).length) :
    fuelItems xs ≤ 1 + (bencodeItems xs).length := by
  induction xs with
  | nil => simp [fuelItems, bencodeItems]
  | cons v t ih =>
    have h1 := h v (by simp)
    have h2 := ih (fun w hw => h w (by simp [hw]))
    have h3 := bencode_length_pos v
    simp only [fuelItems, bencodeItems, List.length_append]
    omega

theorem fuelPairs_le (l : List (List Nat × BValue))
    (h : ∀ p ∈ l, fuelV p.2 ≤ (bencode_value p.2).length) :
    fuelPairs l ≤ 1 + (bencodePairs l).length := by
  induction l with
  | nil => simp [fuelPairs, bencodePairs]
  | cons p t ih =>
    obtain ⟨k, v⟩ := p
    have h1 := h (k, v) (by simp)
    have h2 := ih (fun q hq => h q (by simp [hq]))
    have h3 := bencode_length_pos v
    have h4 := bencode_length_pos (.str k)
    simp only [fuelPairs, bencodePairs, List.length_append]
    simp only at h1
    omega

theorem fuelV_le (v : BValue) : fuelV v ≤ (bencode_value v).length := by
  induction v using bvalue_ind with
  | hint n => simp [fuelV, bencode_value]
  | hstr s => have := bencode_length_pos (.str s); simp [fuelV]; omega
  | hlist xs ih =>
    have := fuelItems_le xs ih
    simp only [fuelV, bencode_value, List.length_cons, List.length_append]
    simp only [List.length_cons, List.length_nil]
    omega
  | hdict prs ih =>
    have hmem : ∀ p ∈ sortPairs prs, fuelV p.2 ≤ (bencode_value p.2).length :=
      fun p hp => ih p ((sortPairs_perm prs).mem_iff.1 hp)
    have := fuelPairs_le (sortPairs prs) hmem
    simp only [fuelV, bencode_value, List.length_cons, List.length_append]
    simp only [List.length_cons, List.length_nil]
    omega

/-! ### `dictInsert` preserves the dict invariants -/

theorem dictInsert_keys_of_contains {acc : List (List Nat × BValue)}
    {k : List Nat} (v : BValue) (hc : containsKey acc k = true) :
    (dictInsert acc k v).map Prod.fst = acc.map Prod.fst := by
  simp only [dictInsert, hc, if_true, List.map_map]
  apply List.map_congr_left
  intro p _
  simp only [Function.comp_apply]
  by_cases hpk : (p.1 == k) = true
  · simp only [hpk, if_true]
    exact (beq_iff_eq.1 hpk).symm
  · simp only [hpk, Bool.false_eq_true, if_false]

theorem keysNodup_dictInsert {acc : List (List Nat × BValue)} {k : List Nat}
    (v : BValue) (h : keysNodup acc = true) :
    keysNodup (dictInsert acc k v) = true := by
  by_cases hc : containsKey acc k = true
  · rw [keysNodup_iff, dictInsert_keys_of_contains v hc]
    exact keysNodup_iff.1 h
  · have hc2 : containsKey acc k = false := by
      simpa using hc
    rw [dictInsert_of_not_contains v hc2, keysNodup_iff, List.map_append]
    simp only [List.map_cons, List.map_nil]
    rw [List.nodup_append]
    refine ⟨keysNodup_iff.1 h, by simp, ?_⟩
    intro a ha hb
    simp only [List.mem_singleton] at hb
    subst hb
    exact absurd (containsKey_iff.2 ha) (by simp [hc2])

theorem wfndPairs_dictInsert {acc : List (List Nat × BValue)} {k : List Nat}
    {v : BValue} (h : wfndPairs acc = true) (hv : wfnd v = true) :
    wfndPairs (dictInsert acc k v) = true := by
  rw [wfndPairs_iff]
  intro q hq
  rw [dictInsert] at hq
  by_cases hc : containsKey acc k = true
  · simp only [hc, if_true] at hq
    rcases List.mem_map.1 hq with ⟨p, hp, hpe⟩
    by_cases hpk : (p.1 == k) = true
    · rw [← hpe]
      simp only [hpk, if_true]
      exact hv
    · rw [← hpe]
      simp only [hpk, Bool.false_eq_true, if_false]
      exact wfndPairs_iff.1 h p hp
  · simp only [hc, if_false] at hq
    rcases List.mem_append.1 hq with h1 | h1
    · exact wfndPairs_iff.1 h q h1
    · simp only [List.mem_singleton] at h1
      subst h1
      exact hv

/-! ### Decoder soundness: every decoded dictionary has distinct keys -/

theorem decode_wfnd_all (f : Nat) :
    (∀ b v rem, decode_value f b = some (v, rem) → wfnd v = true) ∧
    (∀ b xs rem, decode_items f b = some (xs, rem) → wfndItems xs = true) ∧
    (∀ acc b d rem, keysNodup acc = true → wfndPairs acc = true →
      decode_pairs f acc b = some (d, rem) →
      keysNodup d = true ∧ wfndPairs d = true) := by
  induction f with
  | zero =>
    refine ⟨?_, ?_, ?_⟩
    · intro b v rem h; simp [decode_value] at h
    · intro b xs rem h; simp [decode_items] at h
    · intro acc b d rem _ _ h; simp [decode_pairs] at h
  | succ f ih =>
    obtain ⟨ihv, ihi, ihp⟩ := ih
    refine ⟨?_, ?_, ?_⟩
    · intro b v rem h
      cases b with
      | nil => simp [decode_value] at h
      | cons c t =>
        simp only [decode_value] at h
        by_cases h105 : (c == 105) = true
        · simp only [h105, if_true] at h
          cases hdi : decode_int (c :: t) with
          | none => rw [hdi] at h; simp at h
          | some r =>
            rw [hdi] at h
            simp only [Option.map_some'] at h
            have hv : v = .int r.1 := (congrArg Prod.fst (Option.some_inj.1 h)).symm
            rw [hv]
            simp [wfnd]
        · simp only [h105, Bool.false_eq_true, if_false] at h
          by_cases hdig : isDigitByte c = true
          · simp only [hdig, if_true] at h
            cases hds : decode_string (c :: t) with
            | none => rw [hds] at h; simp at h
            | some r =>
              rw [hds] at h
              simp only [Option.map_some'] at h
              have hv : v = .str r.1 := by
                have h2 := Option.some_inj.1 h
                exact (congrArg Prod.fst h2).symm
              rw [hv]
              simp [wfnd]
          · simp only [hdig, Bool.false_eq_true, if_false] at h
            by_cases h108 : (c == 108) = true
            · simp only [h108, if_true] at h
              cases hdi : decode_items f ((c :: t).drop 1) with
              | none => rw [hdi] at h; simp at h
              | some r =>
                rw [hdi] at h
                simp only [Option.map_some'] at h
                have hv : v = .list r.1 := by
                  have h2 := Option.some_inj.1 h
                  exact (congrArg Prod.fst h2).symm
                rw [hv]
                simp only [wfnd]
                exact ihi _ r.1 r.2 (by rw [hdi])
            · simp only [h108, Bool.false_eq_true, if_false] at h
              by_cases h100 : (c == 100) = true
              · simp only [h100, if_true] at h
                cases hdp : decode_pairs f [] ((c :: t).drop 1) with
                | none => rw [hdp] at h; simp at h
                | some r =>
                  rw [hdp] at h
                  simp only [Option.map_some'] at h
                  have hv : v = .dict r.1 := by
                    have h2 := Option.some_inj.1 h
                    exact (congrArg Prod.fst h2).symm
                  rw [hv]
                  have hd := ihp [] _ r.1 r.2 (by simp [keysNodup])
                    (by simp [wfndPairs]) (by rw [hdp])
                  simp only [wfnd, Bool.and_eq_true]
                  exact hd
              · simp only [h100, Bool.false_eq_true, if_false] at h
                simp at h
    · intro b xs rem h
      simp only [decode_items] at h
      by_cases he : (b.head? == some 101) = true
      · simp only [he, if_true] at h
        have hx : xs = [] := by
          have h2 := Option.some_inj.1 h
          exact (congrArg Prod.fst h2).symm
        rw [hx]
        simp [wfndItems]
      · simp only [he, Bool.false_eq_true, if_false] at h
        cases hdv : decode_value f b with
        | none => rw [hdv] at h; simp at h
        | some r =>
          obtain ⟨v1, rem1⟩ := r
          rw [hdv] at h
          cases hdi : decode_items f rem1 with
          | none => simp [hdi] at h
          | some r2 =>
            obtain ⟨xs1, rem2⟩ := r2
            simp only [hdi] at h
            have h2 := Option.some_inj.1 h
            have hx : xs = v1 :: xs1 := (congrArg Prod.fst h2).symm
            rw [hx]
            simp only [wfndItems, Bool.and_eq_true]
            exact ⟨ihv b v1 rem1 hdv, ihi rem1 xs1 rem2 hdi⟩
    · intro acc b d rem hnd hwf h
      simp only [decode_pairs] at h
      by_cases he : (b.head? == some 101) = true
      · simp only [he, if_true] at h
        have hx : d = acc := by
          have h2 := Option.some_inj.1 h
          exact (congrArg Prod.fst h2).symm
        rw [hx]
        exact ⟨hnd, hwf⟩
      · simp only [he, Bool.false_eq_true, if_false] at h
        cases hds : decode_string b with
        | none => rw [hds] at h; simp at h
        | some r =>
          obtain ⟨k, rem1⟩ := r
          rw [hds] at h
          cases hdv : decode_value f rem1 with
          | none => simp [hdv] at h
          | some r2 =>
            obtain ⟨v, rem2⟩ := r2
            simp only [hdv] at h
            exact ihp (dictInsert acc k v) rem2 d rem
              (keysNodup_dictInsert v hnd)
              (wfndPairs_dictInsert hwf (ihv rem1 v rem2 hdv)) h

/-! ### `canon` is Python-equal to the original; identity on canonical trees -/

theorem wfndItems_iff {xs : List BValue} :
    wfndItems xs = true ↔ ∀ v ∈ xs, wfnd v = true := by
  induction xs with
  | nil => simp [wfndItems]
  | cons v t ih =>
    simp only [wfndItems, Bool.and_eq_true, ih, List.mem_cons]
    constructor
    · rintro ⟨h1, h2⟩ w hw
      rcases hw with h | h
      · subst h; exact h1
      · exact h2 w h
    · intro h
      exact ⟨h v (Or.inl rfl), fun w hw => h w (Or.inr hw)⟩

theorem wfsortedItems_iff {xs : List BValue} :
    wfsortedItems xs = true ↔ ∀ v ∈ xs, wfsorted v = true := by
  induction xs with
  | nil => simp [wfsortedItems]
  | cons v t ih =>
    simp only [wfsortedItems, Bool.and_eq_true, ih, List.mem_cons]
    constructor
    · rintro ⟨h1, h2⟩ w hw
      rcases hw with h | h
      · subst h; exact h1
      · exact h2 w h
    · intro h
      exact ⟨h v (Or.inl rfl), fun w hw => h w (Or.inr hw)⟩

theorem wfsortedPairs_iff {l : List (List Nat × BValue)} :
    wfsortedPairs l = true ↔ ∀ p ∈ l, wfsorted p.2 = true := by
  induction l with
  | nil => simp [wfsortedPairs]
  | cons p t ih =>
    obtain ⟨k, v⟩ := p
    simp only [wfsortedPairs, Bool.and_eq_true, ih, List.mem_cons]
    constructor
    · rintro ⟨h1, h2⟩ q hq
      rcases hq with h | h
      · subst h; exact h1
      · exact h2 q h
    · intro h
      exact ⟨h (k, v) (Or.inl rfl), fun q hq => h q (Or.inr hq)⟩

theorem canonPairs_length (l : List (List Nat × BValue)) :
    (canonPairs l).length = l.length := by
  induction l with
  | nil => simp [canonPairs]
  | cons p t ih => obtain ⟨k, v⟩ := p; simp [canonPairs, ih]

theorem mem_canonPairs {q : List Nat × BValue} {l : List (List Nat × BValue)}
    (h : q ∈ canonPairs l) : ∃ p ∈ l, q = (p.1, canon p.2) := by
  induction l with
  | nil => simp [canonPairs] at h
  | cons p t ih =>
    obtain ⟨k, v⟩ := p
    simp only [canonPairs, List.mem_cons] at h
    rcases h with h | h
    · exact ⟨(k, v), by simp, h⟩
    · rcases ih h with ⟨p2, hp2, he⟩
      exact ⟨p2, by simp [hp2], he⟩

theorem lookupKey_of_mem_nodup : ∀ {l : List (List Nat × BValue)}
    {k : List Nat} {v : BValue}, keysNodup l = true → (k, v) ∈ l →
    lookupKey l k = some v := by
  intro l
  induction l with
  | nil => intro k v _ h; simp at h
  | cons p t ih =>
    intro k v hnd hmem
    simp only [keysNodup, Bool.and_eq_true, Bool.not_eq_true'] at hnd
    obtain ⟨hpk, hndt⟩ := hnd
    rcases List.mem_cons.1 hmem with h | h
    · rw [← h]
      simp [lookupKey]
    · have hne : (p.1 == k) = false := by
        have := containsKey_false_iff.1 hpk
        rw [beq_eq_false_iff_ne]
        intro hpe
        exact absurd rfl ((hpe ▸ this (k, v) h))
      simp only [lookupKey, hne, Bool.false_eq_true, if_false]
      exact ih hndt h

theorem pyEqPairs_iff {L b : List (List Nat × BValue)} :
    pyEqPairs L b = true ↔
      ∀ q ∈ L, ∃ w, lookupKey b q.1 = some w ∧ pyEq q.2 w = true := by
  induction L with
  | nil => simp [pyEqPairs]
  | cons p t ih =>
    obtain ⟨k, v⟩ := p
    simp only [pyEqPairs, Bool.and_eq_true, ih, List.mem_cons]
    constructor
    · rintro ⟨h1, h2⟩ q hq
      rcases hq with h | h
      · subst h
        cases hlk : lookupKey b k with
        | none => rw [hlk] at h1; simp at h1
        | some w =>
          rw [hlk] at h1
          exact ⟨w, rfl, h1⟩
      · exact h2 q h
    · intro h
      constructor
      · rcases h (k, v) (Or.inl rfl) with ⟨w, hw, he⟩
        simp only at hw
        rw [hw]
        exact he
      · exact fun q hq => h q (Or.inr hq)

theorem pyEqItems_canon (xs : List BValue)
    (ih : ∀ v ∈ xs, wfnd v = true → pyEq (canon v) v = true)
    (h : ∀ v ∈ xs, wfnd v = true) : pyEqItems (canonItems xs) xs = true := by
  induction xs with
  | nil => simp [canonItems, pyEqItems]
  | cons v t iht =>
    simp only [canonItems, pyEqItems, Bool.and_eq_true]
    exact ⟨ih v (by simp) (h v (by simp)),
      iht (fun w hw hw2 => ih w (by simp [hw]) hw2)
        (fun w hw => h w (by simp [hw]))⟩

theorem pyEqPairs_canon (prs : List (List Nat × BValue))
    (ih : ∀ p ∈ prs, wfnd p.2 = true → pyEq (canon p.2) p.2 = true)
    (hnd : keysNodup prs = true)
    (hwf : ∀ p ∈ prs, wfnd p.2 = true) :
    pyEqPairs (canonPairs (sortPairs prs)) prs = true := by
  rw [pyEqPairs_iff]
  intro q hq
  rcases mem_canonPairs hq with ⟨p, hp, he⟩
  obtain ⟨k0, v0⟩ := p
  have hpm : (k0, v0) ∈ prs := (sortPairs_perm prs).mem_iff.1 hp
  subst he
  exact ⟨v0, lookupKey_of_mem_nodup hnd hpm,
    ih (k0, v0) hpm (hwf (k0, v0) hpm)⟩

theorem pyEq_canon : ∀ v, wfnd v = true → pyEq (canon v) v = true := by
  intro v
  induction v using bvalue_ind with
  | hint n => intro h; simp [canon, pyEq]
  | hstr s => intro h; simp [canon, pyEq]
  | hlist xs ih =>
    intro h
    simp only [wfnd] at h
    simp only [canon, pyEq]
    exact pyEqItems_canon xs ih (wfndItems_iff.1 h)
  | hdict prs ih =>
    intro h
    simp only [wfnd, Bool.and_eq_true] at h
    simp only [canon, pyEq, Bool.and_eq_true]
    refine ⟨?_, pyEqPairs_canon prs ih h.1 (wfndPairs_iff.1 h.2)⟩
    rw [canonPairs_length, (sortPairs_perm prs).length_eq]
    simp

theorem canonItems_eq (xs : List BValue)
    (ih : ∀ v ∈ xs, wfsorted v = true → canon v = v)
    (h : ∀ v ∈ xs, wfsorted v = true) : canonItems xs = xs := by
  induction xs with
  | nil => simp [canonItems]
  | cons v t iht =>
    simp only [canonItems, List.cons.injEq]
    exact ⟨ih v (by simp) (h v (by simp)),
      iht (fun w hw hw2 => ih w (by simp [hw]) hw2)
        (fun w hw => h w (by simp [hw]))⟩

theorem canonPairs_eq (l : List (List Nat × BValue))
    (ih : ∀ p ∈ l, wfsorted p.2 = true → canon p.2 = p.2)
    (h : ∀ p ∈ l, wfsorted p.2 = true) : canonPairs l = l := by
  induction l with
  | nil => simp [canonPairs]
  | cons p t iht =>
    obtain ⟨k, v⟩ := p
    simp only [canonPairs, List.cons.injEq]
    refine ⟨?_, iht (fun q hq hq2 => ih q (by simp [hq]) hq2)
      (fun q hq => h q (by simp [hq]))⟩
    simp only [Prod.mk.injEq, true_and]
    exact ih (k, v) (by simp) (h (k, v) (by simp))

theorem canon_eq_self : ∀ v, wfsorted v = true → canon v = v := by
  intro v
  induction v using bvalue_ind with
  | hint n => intro h; simp [canon]
  | hstr s => intro h; simp [canon]
  | hlist xs ih =>
    intro h
    simp only [wfsorted] at h
    simp only [canon]
    rw [canonItems_eq xs ih (wfsortedItems_iff.1 h)]
  | hdict prs ih =>
    intro h
    simp only [wfsorted, Bool.and_eq_true] at h
    obtain ⟨⟨hsort, hnd⟩, hprs⟩ := h
    simp only [canon]
    rw [sortPairs_of_sorted hsort,
      canonPairs_eq prs ih (wfsortedPairs_iff.1 hprs)]

theorem wfsorted_wfnd : ∀ v, wfsorted v = true → wfnd v = true := by
  intro v
  induction v using bvalue_ind with
  | hint n => intro h; simp [wfnd]
  | hstr s => intro h; simp [wfnd]
  | hlist xs ih =>
    intro h
    simp only [wfsorted] at h
    simp only [wfnd]
    rw [wfndItems_iff]
    intro w hw
    exact ih w hw (wfsortedItems_iff.1 h w hw)
  | hdict prs ih =>
    intro h
    simp only [wfsorted, Bool.and_eq_true] at h
    obtain ⟨⟨hsort, hnd⟩, hprs⟩ := h
    simp only [wfnd, Bool.and_eq_true]
    refine ⟨hnd, ?_⟩
    rw [wfndPairs_iff]
    intro p hp
    exact ih p hp (wfsortedPairs_iff.1 hprs p hp)

/-! ### Claim C1: bencode round-trip -/

/-- `d3:cow3:moo4:spam4:eggse` as bytes. -/
def cowBytes : List Nat :=
  [100, 51, 58, 99, 111, 119, 51, 58, 109, 111, 111,
   52, 58, 115, 112, 97, 109, 52, 58, 101, 103, 103, 115, 101]

/-- The decoded form of `cowBytes`. -/
def cowVal : BValue :=
  .dict [([99, 111, 119], .str [109, 111, 111]),
         ([115, 112, 97, 109], .str [101, 103, 103, 115])]

/-- C1.  Bencode round-trip.  (a) For every value `v` the decoder produces
(from any buffer, any fuel), decoding the encoding of `v` succeeds and the
result is Python-`==` to `v`.  (b) For every valid canonical bencoding `B`
(the encoding of a tree whose dictionaries all have strictly ascending keys;
integers and lengths are then automatically in canonical decimal form),
encoding the decoding of `B` yields exactly `B`.  (c) In particular
`d3:cow3:moo4:spam4:eggse` round-trips unchanged. -/
theorem bencode_roundtrip_claim :
    (∀ f b v rem, decode_value f b = some (v, rem) →
      ∃ w, bdecode (bencode_value v) = some w ∧ pyEq w v = true) ∧
    (∀ B : List Nat, (∃ v, wfsorted v = true ∧ B = bencode_value v) →
      ∃ w, bdecode B = some w ∧ bencode_value w = B) ∧
    (bdecode cowBytes).map bencode_value = some cowBytes := by
  have hmain : ∀ v, wfnd v = true → bdecode (bencode_value v) = some (canon v) := by
    intro v hv
    have hfe := fuelV_le v
    have hdec := (decode_bencode_all ((bencode_value v).length + 1)).1 v [] hv
      (by omega)
    rw [List.append_nil] at hdec
    rw [bdecode, hdec]
    simp
  refine ⟨?_, ?_, ?_⟩
  · intro f b v rem h
    have hv := (decode_wfnd_all f).1 b v rem h
    exact ⟨canon v, hmain v hv, pyEq_canon v hv⟩
  · rintro B ⟨v, hsort, rfl⟩
    have hv := wfsorted_wfnd v hsort
    refine ⟨canon v, hmain v hv, ?_⟩
    rw [canon_eq_self v hsort]
  · have hdec : bdecode cowBytes = some cowVal := by rfl
    rw [hdec]
    simp only [Option.map_some']
    have henc : bencode_value cowVal = cowBytes := by
      simp [cowVal, cowBytes, bencode_value, bencodePairs, sortPairs,
        insertPair, lexLe, natDigits]
    rw [henc]

/-- Witness for C1 at concrete inputs: the decoder output `5` from `i5e`
round-trips under Python equality, and the canonical bencoding `i42e`
re-encodes to itself. -/
theorem bencode_roundtrip_claim_witness :
    (∃ w, bdecode (bencode_value (BValue.int 5)) = some w ∧
        pyEq w (BValue.int 5) = true) ∧
    (∃ w, bdecode [105, 52, 50, 101] = some w ∧
        bencode_value w = [105, 52, 50, 101]) :=
  ⟨bencode_roundtrip_claim.1 1 [105, 53, 101] (BValue.int 5) [] rfl,
   bencode_roundtrip_claim.2.1 [105, 52, 50, 101]
     ⟨BValue.int 42, by simp [wfsorted],
      by simp [bencode_value, intRepr, natDigits]⟩⟩

/-! ### Claim C2: encoder emits dictionary keys in ascending byte order -/

/-- C2.  For every dictionary, the encoder emits its key/value pairs sorted
ascending by raw byte comparison of the keys: the emitted pair sequence
`sortPairs prs` is a permutation of the dictionary's pairs whose keys are in
ascending byte order.  In particular encoding `{b"b": 1, b"a": 2}` yields
exactly `d1:ai2e1:bi1ee`. -/
theorem bencode_dict_keys_sorted_claim :
    (∀ prs : List (List Nat × BValue),
      bencode_value (.dict prs) = 100 :: bencodePairs (sortPairs prs) ++ [101] ∧
      keysSortedLe (sortPairs prs) = true ∧
      List.Perm (sortPairs prs) prs) ∧
    bencode_value (.dict [([98], .int 1), ([97], .int 2)]) =
      [100, 49, 58, 97, 105, 50, 101, 49, 58, 98, 105, 49, 101, 101] := by
  refine ⟨fun prs => ⟨by simp [bencode_value], sortPairs_sorted prs,
    sortPairs_perm prs⟩, ?_⟩
  simp [bencode_value, bencodePairs, sortPairs, insertPair, lexLe, natDigits,
    intRepr]

/-! ### Claim C4: oversized string lengths — the decoder truncates silently -/

/-- `pyInt` on a nonempty plain digit run. -/
theorem pyInt_digits {D : List Nat} (hne : D ≠ [])
    (hdig : ∀ c ∈ D, isDigitByte c = true) :
    pyInt D = some ((D.foldl (fun a c => 10 * a + (c - 48)) 0 : Nat) : Int) := by
  obtain ⟨c, t, hct⟩ : ∃ c t, D = c :: t := by
    cases D with
    | nil => exact absurd rfl hne
    | cons c t => exact ⟨c, t, rfl⟩
  subst hct
  have hc : isDigitByte c = true := hdig c (by simp)
  have hcr : 48 ≤ c ∧ c ≤ 57 := by simpa [isDigitByte] using hc
  have h43 : (c == 43) = false := by simp; omega
  have h45 : (c == 45) = false := by simp; omega
  rw [pyInt, strip_eq_self (fun d hd => isPyWs_false_of_digit (hdig d hd))]
  simp only [h43, h45, Bool.false_eq_true, if_false]
  simp only [pyDigits, hc, if_true]
  rw [pyDigitsCore_all t (fun d hd => hdig d (by simp [hd]))]
  simp only [List.foldl_cons]
  have h0 : 10 * 0 + (c - 48) = c - 48 := by omega
  rw [h0]
  simp

/-- C4 counterexample: on input `5:ab` the byte-string length prefix parses
to 5, which exceeds the 2 remaining bytes, yet `decode_string` returns the
truncated bytes `ab` and `decode_value` does not fail. -/
theorem decode_truncated_counterexample :
    decode_string [53, 58, 97, 98] = some ([97, 98], []) ∧
    decode_value 1 [53, 58, 97, 98] ≠ none := by
  refine ⟨rfl, ?_⟩
  intro h
  rw [show decode_value 1 [53, 58, 97, 98]
      = some (.str [97, 98], []) from rfl] at h
  exact Option.noConfusion h

/-- C4 (amended).  When the parsed byte-string length exceeds the remaining
buffer, `decode_string` raises no error: Python's clamping slice makes it
return all remaining bytes (a truncated string) and leave the cursor past
the end of the buffer. -/
theorem decode_string_truncates (D r : List Nat) (hne : D ≠ [])
    (hdig : ∀ c ∈ D, isDigitByte c = true)
    (hlen : r.length < D.foldl (fun a c => 10 * a + (c - 48)) 0) :
    decode_string (D ++ 58 :: r) = some (r, []) := by
  have hfind : pyFind 58 (D ++ 58 :: r) = some D.length :=
    pyFind_append (fun c hc => by
      have := hdig c hc
      simp [isDigitByte] at this
      simp
      omega) r
  have htake : (D ++ 58 :: r).take D.length = D := List.take_left' rfl
  have hint := pyInt_digits hne hdig
  have hnonneg : ¬ (((D.foldl (fun a c => 10 * a + (c - 48)) 0 : Nat) : Int) < 0) := by
    omega
  have hd1 : (D ++ 58 :: r).drop (D.length + 1) = r := by
    have heq : D ++ 58 :: r = (D ++ [58]) ++ r := by simp
    rw [heq, List.drop_left' (by simp)]
  have hd2 : (D ++ 58 :: r).drop
      (D.length + 1 + D.foldl (fun a c => 10 * a + (c - 48)) 0) = [] := by
    apply List.drop_eq_nil_of_le
    simp
    omega
  simp only [decode_string, hfind, htake, hint]
  rw [if_neg hnonneg]
  simp only [Int.toNat_natCast, hd1, hd2]
  rw [List.take_of_length_le (by omega)]

/-- Witness for the amended C4 at the concrete input `5:ab`. -/
theorem decode_string_truncates_witness :
    decode_string [53, 58, 97, 98] = some ([97, 98], []) :=
  decode_string_truncates [53] [97, 98] (by simp)
    (by intro c hc; simp at hc; subst hc; rfl) (by decide)

/-! ### Claim C8: UDP tracker wire format (tracker_client.py lines 100-161) -/

/-- The connect request of step 1 (lines 105-109):
`struct.pack("!QII", 0x41727101980, 0, transaction_id)`. -/
def connectRequest (transaction_id : Nat) : List Nat :=
  u64be 0x41727101980 ++ u32be 0 ++ u32be transaction_id

/-- `struct.unpack("!IIQ", response_data[:16])` (line 118): action, echoed
transaction id, new connection id. -/
def udpConnectParse (resp : List Nat) : Nat × Nat × Nat :=
  (bytesBE (resp.take 4), bytesBE ((resp.drop 4).take 4),
    bytesBE ((resp.drop 8).take 8))

/-- The acceptance test of line 120: the response is used only when its
action equals `CONNECT_ACTION = 0` and its transaction id echoes ours. -/
def udpConnectAccepted (resp : List Nat) (transaction_id : Nat) : Bool :=
  ((udpConnectParse resp).1 == 0) &&
    ((udpConnectParse resp).2.1 == transaction_id)

/-- `struct.pack` `20s` padding/truncation to exactly 20 bytes. -/
def pad20 (s : List Nat) : List Nat :=
  s.take 20 ++ List.replicate (20 - s.length) 0

/-- The announce request of step 2 (lines 144-159):
`struct.pack("!QII20s20sQQQIIiH", connection_id, 1, transaction_id,
info_hash, peer_id, 0, 0, 0, 2, 0, key, -1, port)` — downloaded, left and
uploaded are hardcoded 0, the event is hardcoded 2 (started), the ip field
is 0 and num_want is -1. -/
def announceRequest (connection_id transaction_id : Nat)
    (info_hash peer_id : List Nat) (key port : Nat) : List Nat :=
  u64be connection_id ++ u32be 1 ++ u32be transaction_id ++
  pad20 info_hash ++ pad20 peer_id ++
  u64be 0 ++ u64be 0 ++ u64be 0 ++
  u32be 2 ++ u32be 0 ++ u32be key ++ i32be (-1) ++ u16be port

theorem pad20_eq {s : List Nat} (h : s.length = 20) : pad20 s = s := by
  rw [pad20, List.take_of_length_le (by omega), h]
  simp

/-- C8.  UDP tracker wire format.  (a) The connect request is exactly 16
bytes: the magic connection id `0x41727101980` as a big-endian u64, action 0
as u32, and the transaction id as u32.  (b) The connect response is accepted
exactly when its action field parses to 0 and its transaction-id field echoes
the request's.  (c) The announce request is exactly 98 bytes laid out as
connection id (u64) ‖ action 1 (u32) ‖ transaction id (u32) ‖ info_hash (20)
‖ peer_id (20) ‖ downloaded 0 (u64) ‖ left 0 (u64) ‖ uploaded 0 (u64) ‖
event 2 = started (u32) ‖ ip 0 (u32) ‖ key (u32) ‖ num_want −1 (i32, bytes
`ff ff ff ff`) ‖ port (u16), all big-endian. -/
theorem udp_tracker_wire_format_claim :
    (∀ tid, connectRequest tid =
        [0, 0, 4, 23, 39, 16, 25, 128] ++ u32be 0 ++ u32be tid ∧
      (connectRequest tid).length = 16) ∧
    (∀ resp tid, udpConnectAccepted resp tid = true ↔
      ((udpConnectParse resp).1 = 0 ∧ (udpConnectParse resp).2.1 = tid)) ∧
    (∀ conn tid ih pid key port, ih.length = 20 → pid.length = 20 →
      announceRequest conn tid ih pid key port =
        u64be conn ++ u32be 1 ++ u32be tid ++ ih ++ pid ++
        u64be 0 ++ u64be 0 ++ u64be 0 ++ u32be 2 ++ u32be 0 ++ u32be key ++
        [255, 255, 255, 255] ++ u16be port ∧
      (announceRequest conn tid ih pid key port).length = 98) := by
  refine ⟨?_, ?_, ?_⟩
  · intro tid
    constructor
    · rfl
    · simp [connectRequest, u64be, u32be]
  · intro resp tid
    simp [udpConnectAccepted]
  · intro conn tid ih pid key port h1 h2
    have hpack : announceRequest conn tid ih pid key port =
        u64be conn ++ u32be 1 ++ u32be tid ++ ih ++ pid ++
        u64be 0 ++ u64be 0 ++ u64be 0 ++ u32be 2 ++ u32be 0 ++ u32be key ++
        [255, 255, 255, 255] ++ u16be port := by
      rw [announceRequest, pad20_eq h1, pad20_eq h2]
      rw [show i32be (-1) = [255, 255, 255, 255] from rfl]
    refine ⟨hpack, ?_⟩
    rw [hpack]
    simp [u64be, u32be, u16be, h1, h2]

/-- Witness for C8 at concrete 20-byte hashes and ids. -/
theorem udp_tracker_wire_format_claim_witness :
    (announceRequest 7 9 (List.replicate 20 1) (List.replicate 20 2)
      3 6881).length = 98 :=
  (udp_tracker_wire_format_claim.2.2 7 9 (List.replicate 20 1)
    (List.replicate 20 2) 3 6881 (by simp) (by simp)).2

/-! ### Peer session (peer_client.py)

Python sets of naturals become lists with set semantics (`memN`, `setAdd`,
`setDiscard`); Python dicts with `Nat` keys become insertion-ordered
association lists with overwrite-in-place assignment (`aset`), mirroring
CPython exactly as `dictInsert` does for the codec.  Sent wire messages and
disk writes are returned as explicit lists. -/

def memN (l : List Nat) (x : Nat) : Bool := l.any (fun y => y == x)

/-- `s.add(x)` on a Python set. -/
def setAdd (l : List Nat) (x : Nat) : List Nat :=
  if memN l x then l else l ++ [x]

/-- `s.discard(x)` on a Python set. -/
def setDiscard (l : List Nat) (x : Nat) : List Nat :=
  l.filter (fun y => !(y == x))

def acontains {α : Type} (d : List (Nat × α)) (k : Nat) : Bool :=
  d.any (fun p => p.1 == k)

/-- CPython `d[k] = v` for `Nat` keys. -/
def aset {α : Type} (d : List (Nat × α)) (k : Nat) (v : α) : List (Nat × α) :=
  if acontains d k then d.map (fun p => if p.1 == k then (k, v) else p)
  else d ++ [(k, v)]

/-- CPython `d[k]` / `d.get(k)` for `Nat` keys. -/
def aget {α : Type} : List (Nat × α) → Nat → Option α
  | [], _ => none
  | p :: t, k => if p.1 == k then some p.2 else aget t k

/-- The per-piece download record of `downloaded_pieces` (peer_client.py
lines 254-260 and 371-377). -/
structure PieceRecord where
  blocks : List (Nat × List Nat)
  total_blocks : Nat
  piece_length : Nat
  is_complete : Bool
  requested_blocks : List Nat
deriving DecidableEq

/-- The freshly initialised record: the source hardcodes
`piece_length = 262144` ("Standard piece size (256KB)"). -/
def freshRecord : PieceRecord :=
  { blocks := [], total_blocks := 0, piece_length := 262144,
    is_complete := false, requested_blocks := [] }

/-- Ascending insertion for `sorted(...)` over `Nat` offsets; extensionally
equal to CPython `sorted` (both stable, and offsets are distinct keys). -/
def insertNat (x : Nat) : List Nat → List Nat
  | [] => [x]
  | y :: t => if x ≤ y then x :: y :: t else y :: insertNat x t

def sortNat : List Nat → List Nat
  | [] => []
  | x :: t => insertNat x (sortNat t)

/-- `combine_piece_blocks` (lines 315-349) applied to the record: `none`
when there are no blocks, otherwise the block data concatenated in
ascending offset order. -/
def combine_piece_blocks (info : PieceRecord) : Option (List Nat) :=
  if info.blocks.isEmpty then none
  else some ((sortNat (info.blocks.map Prod.fst)).foldl
    (fun acc off => acc ++ ((aget info.blocks off).getD [])) [])

/-- `verify_piece` (lines 283-313): false on an out-of-range index, else
compare the SHA-1 digest of the data with the expected piece hash. -/
def verify_piece (sha1 : List Nat → List Nat) (piece_index : Nat)
    (piece_data : List Nat) (piece_hashes : List (List Nat)) : Bool :=
  if piece_hashes.length ≤ piece_index then false
  else sha1 piece_data == piece_hashes.getD piece_index []

/-- `set(range(0, piece_length, block_size))` (line 398). -/
def expectedOffsets (piece_length block_size : Nat) : List Nat :=
  List.range' 0 ((piece_length + block_size - 1) / block_size) block_size

/-- Python `set(a) == set(b)` for lists of naturals. -/
def listSetEq (a b : List Nat) : Bool :=
  a.all (fun x => memN b x) && b.all (fun x => memN a x)

/-- Lines 359-392 of `process_piece_message`: parse the payload, create the
record if absent, store the block, discard the offset from
`requested_blocks`, and store `total_blocks`.  Returns
(piece_index, begin, block_data, new downloaded_pieces). -/
def storeBlock (payload : List Nat) (dp : List (Nat × PieceRecord)) :
    Nat × Nat × List Nat × List (Nat × PieceRecord) :=
  let piece_index := bytesBE (payload.take 4)
  let begin := bytesBE ((payload.drop 4).take 4)
  let block_data := payload.drop 8
  let dp1 := if acontains dp piece_index then dp
             else aset dp piece_index freshRecord
  match aget dp1 piece_index with
  | none => (piece_index, begin, block_data, dp1)
  | some info =>
    let info1 := { info with
      blocks := aset info.blocks begin block_data,
      requested_blocks := setDiscard info.requested_blocks begin }
    let info2 := { info1 with
      total_blocks := (info1.piece_length + 16384 - 1) / 16384 }
    (piece_index, begin, block_data, aset dp1 piece_index info2)

/-- Lines 394-440 of `process_piece_message`: when every expected block
offset is present, combine, verify; on success mark complete and write the
piece at `piece_index * piece_length`; on mismatch reset the record to the
fresh state.  Returns (downloaded_pieces, disk writes). -/
def checkComplete (sha1 : List Nat → List Nat) (piece_hashes : List (List Nat))
    (piece_index : Nat) (dp : List (Nat × PieceRecord)) :
    List (Nat × PieceRecord) × List (Nat × List Nat) :=
  match aget dp piece_index with
  | none => (dp, [])
  | some info =>
    let block_size := 16384
    let piece_length := info.piece_length
    let total_blocks := (piece_length + block_size - 1) / block_size
    if info.blocks.length == total_blocks then
      if listSetEq (info.blocks.map Prod.fst)
          (expectedOffsets piece_length block_size) then
        match combine_piece_blocks info with
        | none => (dp, [])
        | some piece_data =>
          if verify_piece sha1 piece_index piece_data piece_hashes then
            (aset dp piece_index { info with is_complete := true },
             [(piece_index * piece_length, piece_data)])
          else
            (aset dp piece_index freshRecord, [])
      else (dp, [])
    else (dp, [])

/-- `process_piece_message` (lines 351-440). -/
def process_piece_message (sha1 : List Nat → List Nat) (payload : List Nat)
    (piece_hashes : List (List Nat)) (dp : List (Nat × PieceRecord)) :
    List (Nat × PieceRecord) × List (Nat × List Nat) :=
  if payload.length < 8 then (dp, [])
  else
    let r := storeBlock payload dp
    checkComplete sha1 piece_hashes r.1 r.2.2.2

/-- CPython iterates a set of small naturals in ascending order (hash of a
small int is the int itself); `pieces_to_request[0]` is therefore the
minimum.  The verified claims do not depend on which eligible piece is
picked. -/
def minOfList : List Nat → Option Nat
  | [] => none
  | x :: t =>
    match minOfList t with
    | none => some x
    | some m => some (min x m)

/-- `struct.pack(">IBIII", 13, 6, piece_index, offset, length)` (line 271). -/
def requestBytes (piece_index offset length : Nat) : List Nat :=
  u32be 13 ++ [6] ++ u32be piece_index ++ u32be offset ++ u32be length

/-- `struct.pack(">IB", 1, 2)` (line 464), sent by
`send_interested_message`. -/
def interestedBytes : List Nat := u32be 1 ++ [2]

/-- A request message, recognisable by its fixed 5-byte header. -/
def isRequestMsg (m : List Nat) : Bool := m.take 5 == [0, 0, 0, 13, 6]

/-- `request_piece` (lines 233-281): pick an available piece with no record,
create its record (hardcoded `piece_length = 262144`), scan offsets
`0, 16384, 32768, …` below `piece_length`, and request the first offset that
is in neither `blocks` nor `requested_blocks` — always with the fixed
length `block_size = 16384`.  Returns (downloaded_pieces, sent messages). -/
def request_piece (avail : List Nat) (dp : List (Nat × PieceRecord)) :
    List (Nat × PieceRecord) × List (List Nat) :=
  let block_size := 16384
  let eligible := avail.filter (fun p => !(acontains dp p))
  match minOfList eligible with
  | none => (dp, [])
  | some piece_index =>
    let dp1 := if acontains dp piece_index then dp
               else aset dp piece_index freshRecord
    match aget dp1 piece_index with
    | none => (dp1, [])
    | some info =>
      let offsets := List.range' 0
        ((info.piece_length + block_size - 1) / block_size) block_size
      match offsets.find? (fun off =>
          !(acontains info.blocks off) && !(memN info.requested_blocks off)) with
      | none => (dp1, [])
      | some off =>
        (aset dp1 piece_index
          { info with requested_blocks := setAdd info.requested_blocks off },
         [requestBytes piece_index off block_size])

/-- The inner `for bit_index in range(8)` loop of `process_bitfield`
(lines 450-455). -/
def bitfieldByteBits (byte byte_index total : Nat) (acc : List Nat) : List Nat :=
  (List.range 8).foldl (fun a bit =>
    if byte_index * 8 + bit < total then
      if byte &&& (128 >>> bit) != 0 then setAdd a (byte_index * 8 + bit)
      else a
    else a) acc

/-- The outer `for byte_index, byte in enumerate(bitfield_payload)` loop. -/
def process_bitfield_from : List Nat → Nat → Nat → List Nat → List Nat
  | [], _, _, acc => acc
  | byte :: rest, byte_index, total, acc =>
    process_bitfield_from rest (byte_index + 1) total
      (bitfieldByteBits byte byte_index total acc)

/-- `process_bitfield` (lines 442-457): adds every set bit's piece index
(MSB-first within each byte) below `total` to `available_pieces`. -/
def process_bitfield (payload : List Nat) (avail : List Nat) (total : Nat) :
    List Nat :=
  process_bitfield_from payload 0 total avail

/-- The module-level peer-session state (lines 8-12). -/
structure PeerState where
  peer_choking : Bool
  am_interested : Bool
  available_pieces : List Nat
  downloaded_pieces : List (Nat × PieceRecord)
deriving DecidableEq

/-- One iteration of the `process_peer_messages` receive loop
(lines 122-229), given the framed message body (`message_data`); an empty
body makes the source break out, modelled as a no-op.  In the piece branch
the source's `current_piece` search feeds two textually identical
`request_piece(sock, available_pieces)` calls, embedded as the single call
it amounts to.  Returns (state, sent messages, disk writes). -/
def processMessage (sha1 : List Nat → List Nat) (total_pieces : Nat)
    (piece_hashes : List (List Nat)) (s : PeerState) (message_data : List Nat) :
    PeerState × List (List Nat) × List (Nat × List Nat) :=
  match message_data with
  | [] => (s, [], [])
  | message_id :: payload =>
    if message_id == 0 then ({ s with peer_choking := true }, [], [])
    else if message_id == 1 then
      let s1 := { s with peer_choking := false }
      if s1.am_interested then
        let r := request_piece s1.available_pieces s1.downloaded_pieces
        ({ s1 with downloaded_pieces := r.1 }, r.2, [])
      else (s1, [], [])
    else if message_id == 2 then (s, [], [])
    else if message_id == 3 then (s, [], [])
    else if message_id == 4 then
      if payload.length == 4 then
        let piece_index := bytesBE payload
        if piece_index < total_pieces then
          let s1 := { s with
            available_pieces := setAdd s.available_pieces piece_index }
          if !s1.am_interested then
            ({ s1 with am_interested := true }, [interestedBytes], [])
          else (s1, [], [])
        else (s, [], [])
      else (s, [], [])
    else if message_id == 5 then
      let avail2 := process_bitfield payload s.available_pieces total_pieces
      let s1 := { s with available_pieces := avail2 }
      if !avail2.isEmpty && !s1.am_interested then
        ({ s1 with am_interested := true }, [interestedBytes], [])
      else (s1, [], [])
    else if message_id == 6 then (s, [], [])
    else if message_id == 7 then
      let pr := process_piece_message sha1 payload piece_hashes
        s.downloaded_pieces
      let s1 := { s with downloaded_pieces := pr.1 }
      if !s1.peer_choking && s1.am_interested then
        let r := request_piece s1.available_pieces s1.downloaded_pieces
        ({ s1 with downloaded_pieces := r.1 }, r.2, pr.2)
      else (s1, [], pr.2)
    else if message_id == 8 then (s, [], [])
    else (s, [], [])

/-- The receive loop over a list of framed message bodies, recording the
post-state and the messages sent at each step; the source's demo limit
breaks out once three pieces have records. -/
def processLoop (sha1 : List Nat → List Nat) (total_pieces : Nat)
    (piece_hashes : List (List Nat)) :
    PeerState → List (List Nat) → List (PeerState × List (List Nat))
  | _, [] => []
  | s, m :: rest =>
    let r := processMessage sha1 total_pieces piece_hashes s m
    (r.1, r.2.1) ::
      (if 3 ≤ r.1.downloaded_pieces.length then []
       else processLoop sha1 total_pieces piece_hashes r.1 rest)

/-! ### The handshake response check (peer_client.py lines 59-80) -/

inductive HandshakeOutcome where
  | incomplete
  | mismatch
  | success
deriving DecidableEq

/-- Whether the source closes the socket on this outcome (lines 64, 76). -/
def handshakeSocketClosed : HandshakeOutcome → Bool
  | .incomplete => true
  | .mismatch => true
  | .success => false

/-- Whether the source returns the socket (only line 80). -/
def handshakeReturnsSocket : HandshakeOutcome → Bool
  | .incomplete => false
  | .mismatch => false
  | .success => true

/-- `perform_peer_handshake` from the single `recv(68)` on (lines 59-80):
fewer than 68 bytes → close and return `None`; otherwise unpack
`>B19s8s20s20s` (info-hash at bytes 28..47) and compare with the expected
info-hash, closing with `None` on mismatch. -/
def perform_peer_handshake_recv (received info_hash : List Nat) :
    HandshakeOutcome :=
  if received.length < 68 then .incomplete
  else if (received.drop 28).take 20 != info_hash then .mismatch
  else .success

/-! ### Association-list and set helper lemmas -/

theorem aget_of_acontains {α : Type} {d : List (Nat × α)} {k : Nat}
    (h : acontains d k = true) : ∃ v, aget d k = some v := by
  induction d with
  | nil => simp [acontains] at h
  | cons p t ih =>
    simp only [acontains, List.any_cons, Bool.or_eq_true] at h
    by_cases hpk : (p.1 == k) = true
    · exact ⟨p.2, by simp [aget, hpk]⟩
    · rcases h with h | h
      · exact absurd h hpk
      · rcases ih (by simpa [acontains] using h) with ⟨v, hv⟩
        exact ⟨v, by simp [aget, hpk, hv]⟩

theorem aget_append_not_contains {α : Type} {d : List (Nat × α)} {k : Nat}
    {v : α} (h : acontains d k = false) : aget (d ++ [(k, v)]) k = some v := by
  induction d with
  | nil => simp [aget]
  | cons p t ih =>
    simp only [acontains, List.any_cons, Bool.or_eq_false_iff] at h
    simp only [List.cons_append, aget, h.1, Bool.false_eq_true, if_false]
    exact ih (by simpa [acontains] using h.2)

theorem aget_map_replace {α : Type} :
    ∀ (d : List (Nat × α)) (k : Nat) (v : α), acontains d k = true →
      aget (d.map (fun p => if p.1 == k then (k, v) else p)) k = some v := by
  intro d
  induction d with
  | nil => intro k v h; simp [acontains] at h
  | cons p t ih =>
    intro k v h
    by_cases hpk : (p.1 == k) = true
    · simp [aget, hpk]
    · simp only [List.map_cons, hpk, Bool.false_eq_true, if_false]
      simp only [aget, hpk, Bool.false_eq_true, if_false]
      apply ih
      simp only [acontains, List.any_cons, Bool.or_eq_true] at h
      rcases h with h | h
      · exact absurd h hpk
      · simpa [acontains] using h

theorem aget_aset_self {α : Type} (d : List (Nat × α)) (k : Nat) (v : α) :
    aget (aset d k v) k = some v := by
  by_cases hc : acontains d k = true
  · rw [aset, if_pos hc]
    exact aget_map_replace d k v hc
  · have hc2 : acontains d k = false := by simpa using hc
    rw [aset, if_neg (by simp [hc2])]
    exact aget_append_not_contains hc2

theorem aget_create {α : Type} (d : List (Nat × α)) (k : Nat) (v0 : α) :
    ∃ w, aget (if acontains d k then d else aset d k v0) k = some w := by
  by_cases hc : acontains d k = true
  · rw [if_pos (by simp [hc])]
    exact aget_of_acontains hc
  · have hc2 : acontains d k = false := by simpa using hc
    rw [if_neg (by simp [hc2]), aset, if_neg (by simp [hc2])]
    exact ⟨v0, aget_append_not_contains hc2⟩

theorem memN_setDiscard (l : List Nat) (x : Nat) :
    memN (setDiscard l x) x = false := by
  induction l with
  | nil => simp [setDiscard, memN]
  | cons y t ih =>
    simp only [setDiscard, List.filter_cons]
    by_cases hyx : (y == x) = true
    · simp only [hyx, Bool.not_true, Bool.false_eq_true, if_false]
      simpa [setDiscard] using ih
    · simp only [hyx, Bool.not_false]
      simp only [Bool.false_eq_true, if_true, memN, List.any_cons,
        Bool.or_eq_false_iff]
      constructor
      · simpa using hyx
      · simpa [memN, setDiscard] using ih

/-! ### Claim C3: block scheduler sizing (code bug) -/

/-- C3 (code-bug evidence).  `request_piece` never receives the torrent's
metainfo: the download record it creates hardcodes `piece_length = 262144`
(peer_client.py line 257) regardless of the torrent's declared piece length
and total length, and the request it sends always carries the fixed length
`block_size = 16384` (line 271) rather than
`min(block_size, piece_length − offset)`.  Evaluated at the failing input
(peer offers piece 0, nothing downloaded yet). -/
theorem request_piece_hardcoded_sizing :
    request_piece [0] [] =
      ([(0, { blocks := [], total_blocks := 0, piece_length := 262144,
              is_complete := false, requested_blocks := [0] })],
       [requestBytes 0 0 16384]) ∧
    freshRecord.piece_length = 262144 :=
  ⟨rfl, rfl⟩

/-! ### Claim C5: piece-message precondition (corrected) -/

/-- The record `process_piece_message` creates for a previously unseen
piece after storing one block. -/
def c5Record : PieceRecord :=
  { blocks := [(0, [1])], total_blocks := 16, piece_length := 262144,
    is_complete := false, requested_blocks := [] }

/-- C5 counterexample: with `downloaded_pieces` empty (piece 0 has no
in-progress record), a piece(0, 0, [1]) message creates a record and stores
the block, contradicting the claim that the handler requires the index to
be in progress and otherwise stores nothing. -/
theorem process_piece_no_precondition_counterexample :
    (process_piece_message (fun _ => []) [0, 0, 0, 0, 0, 0, 0, 0, 1] [] []).1 =
      [(0, c5Record)] ∧
    (process_piece_message (fun _ => []) [0, 0, 0, 0, 0, 0, 0, 0, 1] [] []).1 ≠
      [] := by
  refine ⟨rfl, ?_⟩
  intro h
  rw [show (process_piece_message (fun _ => [])
      [0, 0, 0, 0, 0, 0, 0, 0, 1] [] []).1 = [(0, c5Record)] from rfl] at h
  exact List.noConfusion h

/-- C5 (amended).  Handling piece(index, begin, data) with a payload of at
least 8 bytes does not require `index` to be in progress: the handler
creates a fresh record (hardcoded `piece_length = 262144`) when `index` has
none, then stores `data` in `blocks[begin]` and discards `begin` from the
requested set; the full handler is exactly this store step followed by the
completeness/hash check (which may subsequently reset the record). -/
theorem process_piece_stores_block (sha1 : List Nat → List Nat)
    (payload : List Nat) (piece_hashes : List (List Nat))
    (dp : List (Nat × PieceRecord)) (h : 8 ≤ payload.length) :
    (∃ info, aget (storeBlock payload dp).2.2.2 (storeBlock payload dp).1 =
        some info ∧
      aget info.blocks (storeBlock payload dp).2.1 = some (payload.drop 8) ∧
      memN info.requested_blocks (storeBlock payload dp).2.1 = false) ∧
    process_piece_message sha1 payload piece_hashes dp =
      checkComplete sha1 piece_hashes (storeBlock payload dp).1
        (storeBlock payload dp).2.2.2 := by
  obtain ⟨info0, h0⟩ := aget_create dp (bytesBE (payload.take 4)) freshRecord
  have hsb : storeBlock payload dp =
      (bytesBE (payload.take 4), bytesBE ((payload.drop 4).take 4),
       payload.drop 8,
       aset (if acontains dp (bytesBE (payload.take 4)) then dp
             else aset dp (bytesBE (payload.take 4)) freshRecord)
         (bytesBE (payload.take 4))
         { info0 with
           blocks := aset info0.blocks (bytesBE ((payload.drop 4).take 4))
             (payload.drop 8),
           requested_blocks := setDiscard info0.requested_blocks
             (bytesBE ((payload.drop 4).take 4)),
           total_blocks := (info0.piece_length + 16384 - 1) / 16384 }) := by
    simp only [storeBlock, h0]
  refine ⟨?_, ?_⟩
  · refine ⟨{ info0 with
      blocks := aset info0.blocks (bytesBE ((payload.drop 4).take 4))
        (payload.drop 8),
      requested_blocks := setDiscard info0.requested_blocks
        (bytesBE ((payload.drop 4).take 4)),
      total_blocks := (info0.piece_length + 16384 - 1) / 16384 }, ?_, ?_, ?_⟩
    · rw [hsb]
      exact aget_aset_self _ _ _
    · rw [hsb]
      exact aget_aset_self _ _ _
    · rw [hsb]
      exact memN_setDiscard _ _
  · rw [process_piece_message, if_neg (by omega)]

/-- Witness for the amended C5 at a concrete piece message. -/
theorem process_piece_stores_block_witness :
    process_piece_message (fun _ => []) [0, 0, 0, 0, 0, 0, 0, 0, 1] [] [] =
      checkComplete (fun _ => []) []
        (storeBlock [0, 0, 0, 0, 0, 0, 0, 0, 1] []).1
        (storeBlock [0, 0, 0, 0, 0, 0, 0, 0, 1] []).2.2.2 :=
  (process_piece_stores_block (fun _ => []) [0, 0, 0, 0, 0, 0, 0, 0, 1] [] []
    (by decide)).2

/-! ### Claim C10: partial handshake read -/

/-- C10.  If the single `recv(68)` returns fewer than 68 bytes, the
handshake handler closes the socket and returns no socket; it never reaches
the info-hash verification (whose outcomes are `mismatch` and `success`),
so it cannot enter the message loop. -/
theorem handshake_incomplete_claim :
    ∀ received info_hash : List Nat, received.length < 68 →
      perform_peer_handshake_recv received info_hash = .incomplete ∧
      handshakeSocketClosed (perform_peer_handshake_recv received info_hash)
        = true ∧
      handshakeReturnsSocket (perform_peer_handshake_recv received info_hash)
        = false ∧
      perform_peer_handshake_recv received info_hash ≠ .mismatch ∧
      perform_peer_handshake_recv received info_hash ≠ .success := by
  intro received info_hash h
  have he : perform_peer_handshake_recv received info_hash = .incomplete := by
    simp [perform_peer_handshake_recv, h]
  refine ⟨he, by rw [he]; rfl, by rw [he]; rfl, by rw [he]; decide,
    by rw [he]; decide⟩

/-- Witness for C10: the empty read. -/
theorem handshake_incomplete_claim_witness :
    perform_peer_handshake_recv [] [] = .incomplete :=
  (handshake_incomplete_claim [] [] (by decide)).1

/-! ### Claim C7: hash mismatch clears the download record -/

theorem memN_iff {l : List Nat} {x : Nat} : memN l x = true ↔ x ∈ l := by
  simp only [memN, List.any_eq_true, beq_iff_eq]
  constructor
  · rintro ⟨y, hy, he⟩
    rw [← he]
    exact hy
  · intro hx
    exact ⟨x, hx, rfl⟩

theorem listSetEq_mem_right {a b : List Nat} (h : listSetEq a b = true)
    {x : Nat} (hx : x ∈ b) : memN a x = true := by
  simp only [listSetEq, Bool.and_eq_true, List.all_eq_true] at h
  exact h.2 x hx

theorem expectedOffsets_zero_mem {pl : Nat} (h : 0 < pl) :
    0 ∈ expectedOffsets pl 16384 := by
  rw [expectedOffsets]
  cases hc : (pl + 16384 - 1) / 16384 with
  | zero =>
    exfalso
    have : 1 ≤ (pl + 16384 - 1) / 16384 := by
      apply (Nat.le_div_iff_mul_le (by omega)).2
      omega
    omega
  | succ n => simp [List.range']

/-- C7.  Whenever a piece's blocks fill every expected offset (the source's
guard: block count equals `total_blocks` and the offset sets coincide) but
the SHA-1 of the blocks concatenated in ascending offset order does not
match the expected digest, `process_piece_message`'s completion step resets
the download record to its initial empty state — empty `blocks`, empty
`requested_blocks`, `is_complete = false` — so the piece can be
re-requested, and it neither marks the piece complete nor writes to disk. -/
theorem hash_mismatch_clears_record (sha1 : List Nat → List Nat)
    (piece_hashes : List (List Nat)) (piece_index : Nat)
    (dp : List (Nat × PieceRecord)) (info : PieceRecord)
    (hget : aget dp piece_index = some info)
    (hpl : 0 < info.piece_length)
    (hcount : info.blocks.length = (info.piece_length + 16384 - 1) / 16384)
    (hoff : listSetEq (info.blocks.map Prod.fst)
      (expectedOffsets info.piece_length 16384) = true)
    (hmismatch : verify_piece sha1 piece_index
      ((combine_piece_blocks info).getD []) piece_hashes = false) :
    checkComplete sha1 piece_hashes piece_index dp =
      (aset dp piece_index freshRecord, []) ∧
    aget (aset dp piece_index freshRecord) piece_index = some freshRecord ∧
    freshRecord.blocks = [] ∧ freshRecord.requested_blocks = [] ∧
    freshRecord.is_complete = false := by
  have hne : info.blocks.isEmpty = false := by
    have h0 : 0 ∈ expectedOffsets info.piece_length 16384 :=
      expectedOffsets_zero_mem hpl
    have hm : memN (info.blocks.map Prod.fst) 0 = true :=
      listSetEq_mem_right hoff h0
    rw [memN_iff] at hm
    cases hb : info.blocks with
    | nil => rw [hb] at hm; simp at hm
    | cons p t => simp [hb]
  obtain ⟨data, hdata⟩ : ∃ data, combine_piece_blocks info = some data := by
    rw [combine_piece_blocks, if_neg (by simp [hne])]
    exact ⟨_, rfl⟩
  have hmis : verify_piece sha1 piece_index data piece_hashes = false := by
    rw [hdata] at hmismatch
    simpa using hmismatch
  have hcb : (info.blocks.length ==
      (info.piece_length + 16384 - 1) / 16384) = true := by
    rw [hcount]; simp
  refine ⟨?_, aget_aset_self _ _ _, rfl, rfl, rfl⟩
  simp only [checkComplete, hget, hcb, if_true, hoff, hdata, hmis,
    Bool.false_eq_true, if_false]

/-- The record of the C7 witness: one stored block `[7]` for a 1-byte
piece. -/
def c7Info : PieceRecord :=
  { blocks := [(0, [7])], total_blocks := 1, piece_length := 1,
    is_complete := false, requested_blocks := [] }

/-- Witness for C7: a full 1-byte piece whose digest (under the concrete
hash function) misses the expected digest is reset to the fresh record and
nothing is written. -/
theorem hash_mismatch_clears_record_witness :
    checkComplete (fun _ => [0]) [[1]] 0 [(0, c7Info)] =
      (aset [(0, c7Info)] 0 freshRecord, []) :=
  (hash_mismatch_clears_record (fun _ => [0]) [[1]] 0 [(0, c7Info)] c7Info rfl
    (by decide) (by decide) (by decide) rfl).1

/-! ### Claim C6: bitfield decoding -/

theorem mem_setAdd {l : List Nat} {x y : Nat} :
    y ∈ setAdd l x ↔ y ∈ l ∨ y = x := by
  rw [setAdd]
  by_cases hm : memN l x = true
  · simp only [hm, if_true]
    constructor
    · exact Or.inl
    · rintro (h | h)
      · exact h
      · subst h; exact memN_iff.1 hm
  · have hm2 : memN l x = false := by simpa using hm
    simp [hm2, List.mem_append]

theorem bitfieldFold_mem (byte byte_index total : Nat) :
    ∀ (bits : List Nat) (acc : List Nat) (y : Nat),
      (y ∈ bits.foldl (fun a bit =>
        if byte_index * 8 + bit < total then
          if byte &&& (128 >>> bit) != 0 then setAdd a (byte_index * 8 + bit)
          else a
        else a) acc) ↔
      (y ∈ acc ∨ ∃ bit ∈ bits, y = byte_index * 8 + bit ∧
        byte_index * 8 + bit < total ∧ byte &&& (128 >>> bit) ≠ 0) := by
  intro bits
  induction bits with
  | nil => intro acc y; simp
  | cons b bt ih =>
    intro acc y
    simp only [List.foldl_cons]
    rw [ih]
    by_cases h1 : byte_index * 8 + b < total
    · by_cases h2 : (byte &&& (128 >>> b) != 0) = true
      · simp only [h1, if_true, h2, mem_setAdd]
        constructor
        · rintro ((h | h) | h)
          · exact Or.inl h
          · exact Or.inr ⟨b, by simp, h, h1, by simpa using h2⟩
          · rcases h with ⟨bit, hbit, he, hlt, hne⟩
            exact Or.inr ⟨bit, by simp [hbit], he, hlt, hne⟩
        · rintro (h | h)
          · exact Or.inl (Or.inl h)
          · rcases h with ⟨bit, hbit, he, hlt, hne⟩
            rcases List.mem_cons.1 hbit with hb | hb
            · subst hb
              exact Or.inl (Or.inr he)
            · exact Or.inr ⟨bit, hb, he, hlt, hne⟩
      · have h2n : byte &&& (128 >>> b) = 0 := by
          simpa using h2
        simp only [h1, if_true, h2, Bool.false_eq_true, if_false]
        constructor
        · rintro (h | h)
          · exact Or.inl h
          · rcases h with ⟨bit, hbit, he, hlt, hne⟩
            exact Or.inr ⟨bit, by simp [hbit], he, hlt, hne⟩
        · rintro (h | h)
          · exact Or.inl h
          · rcases h with ⟨bit, hbit, he, hlt, hne⟩
            rcases List.mem_cons.1 hbit with hb | hb
            · subst hb
              exact absurd h2n hne
            · exact Or.inr ⟨bit, hb, he, hlt, hne⟩
    · simp only [h1, if_false]
      constructor
      · rintro (h | h)
        · exact Or.inl h
        · rcases h with ⟨bit, hbit, he, hlt, hne⟩
          exact Or.inr ⟨bit, by simp [hbit], he, hlt, hne⟩
      · rintro (h | h)
        · exact Or.inl h
        · rcases h with ⟨bit, hbit, he, hlt, hne⟩
          rcases List.mem_cons.1 hbit with hb | hb
          · subst hb
            exact absurd hlt h1
          · exact Or.inr ⟨bit, hb, he, hlt, hne⟩

theorem bitfieldByteBits_mem (byte byte_index total : Nat)
    (acc : List Nat) (y : Nat) :
    y ∈ bitfieldByteBits byte byte_index total acc ↔
    y ∈ acc ∨ ∃ bit, bit < 8 ∧ y = byte_index * 8 + bit ∧
      y < total ∧ byte &&& (128 >>> bit) ≠ 0 := by
  rw [bitfieldByteBits, bitfieldFold_mem]
  constructor
  · rintro (h | h)
    · exact Or.inl h
    · rcases h with ⟨bit, hbit, he, hlt, hne⟩
      exact Or.inr ⟨bit, List.mem_range.1 hbit, he, he ▸ hlt, hne⟩
  · rintro (h | h)
    · exact Or.inl h
    · rcases h with ⟨bit, hbit, he, hlt, hne⟩
      exact Or.inr ⟨bit, List.mem_range.2 hbit, he, he ▸ hlt, hne⟩

theorem process_bitfield_from_mem (total : Nat) :
    ∀ (payload : List Nat) (byte_index : Nat) (acc : List Nat) (y : Nat),
      y ∈ process_bitfield_from payload byte_index total acc ↔
      y ∈ acc ∨ ∃ k, k < payload.length ∧ ∃ bit, bit < 8 ∧
        y = (byte_index + k) * 8 + bit ∧ y < total ∧
        (payload.getD k 0) &&& (128 >>> bit) ≠ 0 := by
  intro payload
  induction payload with
  | nil => intro bi acc y; simp [process_bitfield_from]
  | cons byte rest ih =>
    intro bi acc y
    simp only [process_bitfield_from]
    rw [ih, bitfieldByteBits_mem]
    constructor
    · rintro ((h | h) | h)
      · exact Or.inl h
      · rcases h with ⟨bit, hbit, he, hlt, hne⟩
        refine Or.inr ⟨0, by simp, bit, hbit, by omega, hlt, by simpa using hne⟩
      · rcases h with ⟨k, hk, bit, hbit, he, hlt, hne⟩
        refine Or.inr ⟨k + 1, by simp; omega, bit, hbit, by omega, hlt, ?_⟩
        simpa using hne
    · rintro (h | h)
      · exact Or.inl (Or.inl h)
      · rcases h with ⟨k, hk, bit, hbit, he, hlt, hne⟩
        cases k with
        | zero =>
          refine Or.inl (Or.inr ⟨bit, hbit, by omega, hlt, by simpa using hne⟩)
        | succ k2 =>
          refine Or.inr ⟨k2, by simp at hk; omega, bit, hbit, by omega, hlt, ?_⟩
          simpa using hne

theorem land_shift_testBit {byte bit : Nat} (h : bit < 8) :
    byte &&& (128 >>> bit) ≠ 0 ↔ byte.testBit (7 - bit) = true := by
  have h128 : (128 : Nat) >>> bit = 2 ^ (7 - bit) := by
    rw [Nat.shiftRight_eq_div_pow, show (128 : Nat) = 2 ^ 7 from rfl,
      Nat.pow_div (by omega) (by omega)]
  rw [h128, Nat.and_two_pow]
  constructor
  · intro hne
    cases ht : byte.testBit (7 - bit) with
    | false => rw [ht] at hne; simp at hne
    | true => rfl
  · intro ht
    rw [ht]
    simp

theorem process_bitfield_mem (payload avail : List Nat) (total y : Nat) :
    y ∈ process_bitfield payload avail total ↔
    y ∈ avail ∨ (y < total ∧ y / 8 < payload.length ∧
      (payload.getD (y / 8) 0).testBit (7 - y % 8) = true) := by
  rw [process_bitfield, process_bitfield_from_mem]
  constructor
  · rintro (h | h)
    · exact Or.inl h
    · rcases h with ⟨k, hk, bit, hbit, he, hlt, hne⟩
      have hk2 : y / 8 = k := by omega
      have hb2 : y % 8 = bit := by omega
      refine Or.inr ⟨hlt, by omega, ?_⟩
      rw [hk2, hb2]
      exact (land_shift_testBit hbit).1 hne
  · rintro (h | h)
    · exact Or.inl h
    · rcases h with ⟨hlt, hk, ht⟩
      refine Or.inr ⟨y / 8, hk, y % 8, by omega, by omega, hlt, ?_⟩
      exact (land_shift_testBit (by omega)).2 ht

/-- C6.  Bitfield decoding: a piece index is in `available_pieces` after
`process_bitfield` exactly when it was already there, or its bit — bit
`byte_index·8 + bit_index`, MSB-first within each byte — is set in the
payload and the index is below the total piece count (bits at or beyond the
total are ignored).  For `total_pieces = 10` and payload `a0 00`,
`available_pieces` becomes `{0, 2}`.  Afterwards the bitfield branch of the
message loop sends `interested` exactly when the updated `available_pieces`
is non-empty and `am_interested` was false. -/
theorem bitfield_decoding_claim :
    (∀ payload avail total y,
      y ∈ process_bitfield payload avail total ↔
      y ∈ avail ∨ (y < total ∧ y / 8 < payload.length ∧
        (payload.getD (y / 8) 0).testBit (7 - y % 8) = true)) ∧
    process_bitfield [160, 0] [] 10 = [0, 2] ∧
    (∀ sha1 total_pieces piece_hashes s payload,
      (interestedBytes ∈ (processMessage sha1 total_pieces piece_hashes s
          (5 :: payload)).2.1) ↔
      (process_bitfield payload s.available_pieces total_pieces ≠ [] ∧
        s.am_interested = false)) := by
  refine ⟨process_bitfield_mem, rfl, ?_⟩
  intro sha1 total_pieces piece_hashes s payload
  simp only [processMessage]
  rw [show ((5 : Nat) == 0) = false from rfl]
  rw [show ((5 : Nat) == 1) = false from rfl]
  rw [show ((5 : Nat) == 2) = false from rfl]
  rw [show ((5 : Nat) == 3) = false from rfl]
  rw [show ((5 : Nat) == 4) = false from rfl]
  rw [show ((5 : Nat) == 5) = true from rfl]
  simp only [Bool.false_eq_true, if_false, if_true]
  by_cases he : process_bitfield payload s.available_pieces total_pieces = []
  · simp [he]
  · have hne : (process_bitfield payload s.available_pieces
        total_pieces).isEmpty = false := by
      cases hc : process_bitfield payload s.available_pieces total_pieces with
      | nil => exact absurd hc he
      | cons a t => rfl
    by_cases ham : s.am_interested = true
    · simp [hne, ham, he]
    · have ham2 : s.am_interested = false := by simpa using ham
      simp [hne, ham2, he]

/-! ### Claim C9: no request is sent while the peer is choking us -/

theorem isRequestMsg_interested_false : isRequestMsg interestedBytes = false :=
  rfl

/-- Per-message step: if any message sent while processing one framed
message is a request, the session's `peer_choking` at that point (the
post-state of the step; the unchoke branch lowers it before requesting and
the piece branch is guarded by it and leaves it unchanged) is false. -/
theorem no_request_step (sha1 : List Nat → List Nat) (total_pieces : Nat)
    (piece_hashes : List (List Nat)) (s : PeerState) (m : List Nat)
    (h : ∃ msg ∈ (processMessage sha1 total_pieces piece_hashes s m).2.1,
      isRequestMsg msg = true) :
    (processMessage sha1 total_pieces piece_hashes s m).1.peer_choking
      = false := by
  obtain ⟨msg, hmem, hreq⟩ := h
  cases m with
  | nil => simp [processMessage] at hmem
  | cons message_id payload =>
    simp only [processMessage] at hmem ⊢
    by_cases h0 : (message_id == 0) = true
    · simp only [h0, if_true] at hmem
      simp at hmem
    · simp only [h0, Bool.false_eq_true, if_false] at hmem ⊢
      by_cases h1 : (message_id == 1) = true
      · simp only [h1, if_true] at hmem ⊢
        by_cases ham : s.am_interested = true
        · simp [ham]
        · have ham2 : s.am_interested = false := by simpa using ham
          simp [ham2]
      · simp only [h1, Bool.false_eq_true, if_false] at hmem ⊢
        by_cases h2 : (message_id == 2) = true
        · simp only [h2, if_true] at hmem
          simp at hmem
        · simp only [h2, Bool.false_eq_true, if_false] at hmem ⊢
          by_cases h3 : (message_id == 3) = true
          · simp only [h3, if_true] at hmem
            simp at hmem
          · simp only [h3, Bool.false_eq_true, if_false] at hmem ⊢
            by_cases h4 : (message_id == 4) = true
            · simp only [h4, if_true] at hmem
              by_cases hlen : (payload.length == 4) = true
              · simp only [hlen, if_true] at hmem
                by_cases hidx : bytesBE payload < total_pieces
                · simp only [hidx, if_true] at hmem
                  by_cases ham : s.am_interested = true
                  · simp only [ham, Bool.not_true, Bool.false_eq_true,
                      if_false] at hmem
                    simp at hmem
                  · have ham2 : s.am_interested = false := by simpa using ham
                    simp only [ham2, Bool.not_false, if_true] at hmem
                    simp only [List.mem_singleton] at hmem
                    subst hmem
                    exact absurd hreq (by decide)
                · simp only [hidx, if_false] at hmem
                  simp at hmem
              · simp only [hlen, Bool.false_eq_true, if_false] at hmem
                simp at hmem
            · simp only [h4, Bool.false_eq_true, if_false] at hmem ⊢
              by_cases h5 : (message_id == 5) = true
              · simp only [h5, if_true] at hmem
                by_cases hcond : (!(process_bitfield payload
                    s.available_pieces total_pieces).isEmpty &&
                    !s.am_interested) = true
                · simp only [hcond, if_true] at hmem
                  simp only [List.mem_singleton] at hmem
                  subst hmem
                  exact absurd hreq (by decide)
                · simp only [hcond, Bool.false_eq_true, if_false] at hmem
                  simp at hmem
              · simp only [h5, Bool.false_eq_true, if_false] at hmem ⊢
                by_cases h6 : (message_id == 6) = true
                · simp only [h6, if_true] at hmem
                  simp at hmem
                · simp only [h6, Bool.false_eq_true, if_false] at hmem ⊢
                  by_cases h7 : (message_id == 7) = true
                  · simp only [h7, if_true] at hmem ⊢
                    by_cases hcond : (!s.peer_choking && s.am_interested)
                        = true
                    · have hc := hcond
                      simp only [Bool.and_eq_true, Bool.not_eq_true'] at hc
                      simp [hcond, hc.1, hc.2]
                    · simp only [hcond, Bool.false_eq_true, if_false] at hmem
                      simp at hmem
                  · simp only [h7, Bool.false_eq_true, if_false] at hmem ⊢
                    by_cases h8 : (message_id == 8) = true
                    · simp only [h8, if_true] at hmem
                      simp at hmem
                    · simp only [h8, Bool.false_eq_true, if_false] at hmem
                      simp at hmem

/-- C9.  In every execution of the message loop, over any message sequence
from any starting state, a request message is sent at a step only if
`peer_choking` is false at that step (it is lowered by the unchoke branch
before the request, required false by the piece branch, and never raised
between the guard and the send): every trace entry that sends a request has
`peer_choking = false`. -/
theorem no_request_while_choked_claim :
    ∀ (sha1 : List Nat → List Nat) (total_pieces : Nat)
      (piece_hashes : List (List Nat)) (s : PeerState)
      (msgs : List (List Nat)) (p : PeerState × List (List Nat)),
      p ∈ processLoop sha1 total_pieces piece_hashes s msgs →
      (∃ msg ∈ p.2, isRequestMsg msg = true) →
      p.1.peer_choking = false := by
  intro sha1 total_pieces piece_hashes s msgs
  induction msgs generalizing s with
  | nil => intro p hp _; simp [processLoop] at hp
  | cons m rest ih =>
    intro p hp hreq
    simp only [processLoop] at hp
    rcases List.mem_cons.1 hp with h | h
    · subst h
      exact no_request_step sha1 total_pieces piece_hashes s m hreq
    · by_cases hbreak : 3 ≤ (processMessage sha1 total_pieces piece_hashes
          s m).1.downloaded_pieces.length
      · rw [if_pos hbreak] at h
        simp at h
      · rw [if_neg hbreak] at h
        exact ih _ p h hreq

/-- Witness for C9: a concrete trace in which a request is sent — the peer
unchokes an interested session — whose step indeed ends unchoked. -/
theorem no_request_while_choked_claim_witness :
    (PeerState.mk false true [0]
       [(0, { blocks := [], total_blocks := 0, piece_length := 262144,
              is_complete := false, requested_blocks := [0] })],
     [requestBytes 0 0 16384]).1.peer_choking = false :=
  no_request_while_choked_claim (fun _ => []) 1 []
    (PeerState.mk true true [0] []) [[1]] _
    (by rw [show processLoop (fun _ => []) 1 []
        (PeerState.mk true true [0] []) [[1]] =
        [(PeerState.mk false true [0]
            [(0, { blocks := [], total_blocks := 0, piece_length := 262144,
                   is_complete := false, requested_blocks := [0] })],
          [requestBytes 0 0 16384])] from rfl]; simp)
    ⟨requestBytes 0 0 16384, by simp, rfl⟩
